import Mathlib

/-!
A verification development for the Espresso-II expansion core
(`src/espresso/expand.c`: `expand`, `expand1`, `essen_parts`, `essen_raising`,
`elim_lowering`, `most_frequent`, `select_feasible`, `feasibly_covered`,
`mincov`, and the sparse cleanup `make_sparse` / `mv_reduce`).

Cubes are bit vectors over parts `0 .. P-1`; we embed them as `Finset ℕ`.
Per-cube flags (`PRIME`, `COVERED`, `ACTIVE`, `NONESSEN`) live in a record
next to the bits, and a cover is a list of such cubes together with the
cached `active_count` field, exactly as in the C data model.

The cube-algebra primitives (`cdist0`, `cdist01`, `force_lower`,
`set_dist`, ...) and the external collaborators (`mini_sort`,
`unravel_output`, `do_sm_minimum_cover`, `mark_irredundant`, `cover_cost`)
are not part of the source file; they are modelled from the specification
(each such definition carries a doc comment starting `Modelled from the
spec:`).  Everything else is translated directly from the C source.

The C routines mutate state in place and can call `fatal`; we thread the
state explicitly and return `Except Err _`, where `Err.fatal` models the
`fatal()` diagnostic abort and `Err.fuel` models non-termination of the
unbounded C loops (which we run on explicit fuel).
-/

set_option synthInstance.maxSize 1000
set_option maxHeartbeats 2000000

namespace Espresso

/-- Global cube geometry (the process-wide `cube` record): total number of
parts `size`, the list of per-variable part masks `var_mask`, and the index
of the output variable. -/
structure Geom where
  size : ℕ
  varMask : List (Finset ℕ)
  output : ℕ


/-- The all-ones cube `cube.fullset`: union of all variable masks. -/
def Geom.fullset (G : Geom) : Finset ℕ :=
  G.varMask.foldr (fun m acc => m ∪ acc) ∅

/-- The mask `cube.var_mask[cube.output]` of the output variable. -/
def Geom.outMask (G : Geom) : Finset ℕ :=
  G.varMask.getD G.output ∅

/-- A cube: semantic bits plus the four flag bits of the C representation. -/
structure Cube where
  bits : Finset ℕ
  prime : Bool := false
  covered : Bool := false
  active : Bool := false
  nonessen : Bool := false
deriving DecidableEq

/-- A cover: an ordered list of cubes plus the cached `active_count`. -/
structure Cover where
  cubes : List Cube
  active_count : ℕ := 0
deriving DecidableEq

/-- Number of cubes whose `ACTIVE` flag is set. -/
def countActive (l : List Cube) : ℕ :=
  (l.filter (fun p => p.active)).length

/-- The masks of the variables in which `a` and `b` do not intersect
(the "separating" variables); the cube distance is their number. -/
def sepVars (G : Geom) (a b : Finset ℕ) : List (Finset ℕ) :=
  G.varMask.filter (fun m => decide (a ∩ b ∩ m = ∅))

/-- Modelled from the spec: `cdist0(a,b)` is true iff `a ∩ b` is non-empty
in every variable (distance 0, i.e. the cubes intersect). -/
def cdist0 (G : Geom) (a b : Finset ℕ) : Bool :=
  (sepVars G a b).isEmpty

/-- Modelled from the spec: `cdist01(a,b)` returns 0 if the distance is 0,
1 if exactly one variable separates the cubes, and 2 for any larger
distance. -/
def cdist01 (G : Geom) (a b : Finset ℕ) : ℕ :=
  min (sepVars G a b).length 2

/-- Modelled from the spec: `set_dist(a,b)` is the number of parts in
`a ∩ b`. -/
def set_dist (a b : Finset ℕ) : ℕ :=
  (a ∩ b).card

/-- Modelled from the spec: `force_lower(dst, a, b)` accumulates into `dst`,
for every variable `v` in which the OFF-cube `a` and the raising cube `b`
are disjoint, the parts of `v` that are not in `b` — the parts that must
remain unraised to keep orthogonality with `a` (in the words of the source
comment above `essen_parts`: "we must lower all parts of the conflicting
variable").  The spec's §4.A phrase "the parts of `raise` ∩ (complement of
`off_cube`) restricted to `v`" has the complement on the wrong operand:
taken literally it is a subset of the raising set, so removing it from the
free set would always be a no-op, contradicting both the spec's own gloss
("these are the parts that must remain unraised") and the source comment;
we follow the gloss. -/
def force_lower (G : Geom) (dst a b : Finset ℕ) : Finset ℕ :=
  dst ∪ (sepVars G a b).foldr (fun m acc => (m \ b) ∪ acc) ∅

/-- Insertion of a C `int` part index into a set: `set_insert` is only
well-defined for a non-negative index (the C code writes out of bounds on a
negative one, e.g. when `most_frequent` returns -1; we model that
out-of-bounds write as a no-op). -/
def zinsert (s : Finset ℕ) (i : ℤ) : Finset ℕ :=
  if 0 ≤ i then insert i.toNat s else s

/-- Removal of a C `int` part index from a set (`set_remove`). -/
def zremove (s : Finset ℕ) (i : ℤ) : Finset ℕ :=
  if 0 ≤ i then s.erase i.toNat else s

/-- Errors of the embedded computation: `fatal` models the `fatal()` abort
("ON-set and OFF-set are not orthogonal"), `fuel` models divergence of an
unbounded C loop. -/
inductive Err where
  | fatal : Err
  | fuel : Err
deriving DecidableEq

instance exceptDecEq {ε α : Type _} [DecidableEq ε] [DecidableEq α] :
    DecidableEq (Except ε α) := fun a b =>
  match a, b with
  | .ok x, .ok y =>
      if h : x = y then isTrue (h ▸ rfl) else isFalse (fun hh => h (Except.ok.inj hh))
  | .ok _, .error _ => isFalse (fun hh => Except.noConfusion hh)
  | .error _, .ok _ => isFalse (fun hh => Except.noConfusion hh)
  | .error e, .error f =>
      if h : e = f then isTrue (h ▸ rfl) else isFalse (fun hh => h (Except.error.inj hh))

/-- Deactivate (reset `ACTIVE`, decrement `active_count`) every active cube
satisfying `f`; this is the common `active_count--, RESET(p, ACTIVE)`
pattern of the C source. -/
def deactWhere (F : Cover) (f : Cube → Bool) : Cover :=
  { cubes := F.cubes.map (fun p => if p.active && f p then { p with active := false } else p),
    active_count := F.active_count - (F.cubes.filter (fun p => p.active && f p)).length }

/-- Mark every cube of the cover active and set `active_count` accordingly
(the `BB` loop at the start of `expand1`). -/
def activateAll (F : Cover) : Cover :=
  { cubes := F.cubes.map (fun p => { p with active := true }),
    active_count := F.cubes.length }

/-- elim_lowering -- after removing parts from FREESET, deactivate every
cube of `BB` that does not intersect the over-expanded cube
`RAISE ∪ FREESET`, and (when `CC` is present) every cube of `CC` that is
not contained in it. -/
def elim_lowering (G : Geom) (BB : Cover) (CC : Option Cover)
    (RAISE FREESET : Finset ℕ) : Cover × Option Cover :=
  let r := RAISE ∪ FREESET
  let BB' := deactWhere BB (fun p => ! cdist0 G p.bits r)
  let CC' := CC.map (fun cc => deactWhere cc (fun p => ! decide (p.bits ⊆ r)))
  (BB', CC')

/-- essen_parts -- for every active OFF-cube at distance 1 from `RAISE`,
accumulate its forced-lower parts and deactivate it; a distance-0 pair is
the fatal "ON-set and OFF-set are not orthogonal" condition.  If any part
was forced low, remove those parts from `FREESET` and call
`elim_lowering`. -/
def essen_parts (G : Geom) (BB : Cover) (CC : Option Cover)
    (RAISE FREESET : Finset ℕ) : Except Err (Cover × Option Cover × Finset ℕ) :=
  if BB.cubes.any (fun p => p.active && decide (cdist01 G p.bits RAISE = 0)) then
    .error .fatal
  else
    let xlower := BB.cubes.foldl
      (fun x p => if p.active && decide (cdist01 G p.bits RAISE = 1) then
                    force_lower G x p.bits RAISE else x) ∅
    let BB' := deactWhere BB (fun p => decide (cdist01 G p.bits RAISE = 1))
    if xlower = ∅ then .ok (BB', CC, FREESET)
    else
      let F' := FREESET \ xlower
      let (BB2, CC2) := elim_lowering G BB' CC RAISE F'
      .ok (BB2, CC2, F')

/-- essen_raising -- any free part blocked by no active OFF-cube is moved
from `FREESET` into `RAISE`. -/
def essen_raising (G : Geom) (BB : Cover) (RAISE FREESET : Finset ℕ) :
    Finset ℕ × Finset ℕ :=
  let u := BB.cubes.foldl (fun u p => if p.active then u ∪ p.bits else u) ∅
  let xraise := FREESET \ u
  (RAISE ∪ xraise, FREESET \ xraise)

/-- most_frequent -- return the free part occurring in the most active
cubes of `CC` (all counts are zero when `CC` is absent); ties go to the
smallest index, and -1 is returned when no part of `FREESET` lies in
`0 .. cube.size - 1`. -/
def most_frequent (G : Geom) (CC : Option Cover) (FREESET : Finset ℕ) : ℤ :=
  let count : ℕ → ℕ := fun i =>
    match CC with
    | none => 0
    | some cc => (cc.cubes.filter (fun p => p.active && decide (i ∈ p.bits))).length
  let best := (List.range G.size).foldl
    (fun (st : ℤ × ℤ) i =>
      if i ∈ FREESET ∧ (count i : ℤ) > st.2 then ((i : ℤ), (count i : ℤ)) else st)
    (-1, -1)
  best.1

/-- feasibly_covered -- test whether `RAISE ∪ c` stays orthogonal to the
active OFF-cubes; on success return the accumulated forced-lower parts.
A distance-0 pair here just makes the cube infeasible (`none`); the C code
returns `FALSE`, it does not abort. -/
def feasibly_covered (G : Geom) (BB : Cover) (c RAISE : Finset ℕ) :
    Option (Finset ℕ) :=
  let r := RAISE ∪ c
  if BB.cubes.any (fun p => p.active && decide (cdist01 G p.bits r = 0)) then none
  else some (BB.cubes.foldl
    (fun x p => if p.active && decide (cdist01 G p.bits r = 1) then
                  force_lower G x p.bits r else x) ∅)

/-- The default cube (used to total list indexing; never reached on the
valid indices the drivers use). -/
def dfltCube : Cube := { bits := ∅ }

/-- Apply `f` to the cube at position `i` (the C code mutates the cube
through a pointer). -/
def modifyCube (l : List Cube) (i : ℕ) (f : Cube → Cube) : List Cube :=
  match l[i]? with
  | none => l
  | some p => l.set i (f p)

/-- The state mutated by `expand1` and `select_feasible`: the two covers
and the `RAISE` / `FREESET` / `SUPER_CUBE` scratch cubes plus the counter
of covered cubes. -/
structure EState where
  BB : Cover
  CC : Cover
  RAISE : Finset ℕ
  FREESET : Finset ℕ
  SUPER : Finset ℕ
  numCov : ℕ
deriving DecidableEq

/-- The filtering pass of `select_feasible`: walk the candidate array; a
candidate that became inactive is dropped; one contained in `RAISE` is
absorbed (counted, merged into `SUPER_CUBE`, marked `COVERED` and
inactive); otherwise it is kept iff `feasibly_covered` succeeds, together
with its recorded new forced-lower parts. -/
def sf_filter (G : Geom) (st : EState) (feas : List ℕ) :
    EState × List (ℕ × Finset ℕ) :=
  feas.foldl
    (fun acc i =>
      match acc.1.CC.cubes[i]? with
      | none => acc
      | some p =>
        if p.active then
          if p.bits ⊆ acc.1.RAISE then
            ({ acc.1 with
                CC := { cubes := modifyCube acc.1.CC.cubes i
                          (fun q => { q with active := false, covered := true }),
                        active_count := acc.1.CC.active_count - 1 },
                SUPER := acc.1.SUPER ∪ p.bits,
                numCov := acc.1.numCov + 1 }, acc.2)
          else
            match feasibly_covered G acc.1.BB p.bits acc.1.RAISE with
            | some nl => (acc.1, acc.2 ++ [(i, nl)])
            | none => acc
        else acc)
    (st, [])

/-- The scoring pass of `select_feasible`: each surviving candidate is
scored by how many candidates stay disjoint from its recorded forced-lower
parts (`count`), ties broken by the smaller number of newly raised parts
(`size`, against 9999); the best candidate's bits are returned. -/
def sf_best (CCcubes : List Cube) (FREESET : Finset ℕ)
    (kept : List (ℕ × Finset ℕ)) : Finset ℕ :=
  let bitsOf : ℕ → Finset ℕ := fun i => ((CCcubes[i]?).map Cube.bits).getD ∅
  let res := kept.foldl
    (fun (st : Finset ℕ × ℕ × ℕ) e =>
      let size := set_dist (bitsOf e.1) FREESET
      let count := (kept.filter (fun e2 => decide (e.2 ∩ bitsOf e2.1 = ∅))).length
      if count > st.2.1 then (bitsOf e.1, count, size)
      else if count = st.2.1 ∧ size < st.2.2 then (bitsOf e.1, st.2.1, size)
      else st)
    (∅, 0, 9999)
  res.1

/-- The main loop of `select_feasible`: raise the essentially-raisable
parts, filter the candidates, stop when none survive, otherwise commit the
best candidate to `RAISE`, rerun `essen_parts`, and loop.  The C loop is
unbounded; each round kills at least the committed candidate, so the fuel
chosen by `select_feasible` suffices. -/
def sf_loop (G : Geom) : ℕ → EState → List ℕ → Except Err EState
  | 0, _, _ => .error .fuel
  | fuel + 1, st, feas =>
    let rf := essen_raising G st.BB st.RAISE st.FREESET
    let st1 := { st with RAISE := rf.1, FREESET := rf.2 }
    let fk := sf_filter G st1 feas
    if fk.2.isEmpty then .ok fk.1
    else
      let st2 := fk.1
      let best := sf_best st2.CC.cubes st2.FREESET fk.2
      let R2 := st2.RAISE ∪ best
      let F2 := st2.FREESET \ R2
      match essen_parts G st2.BB (some st2.CC) R2 F2 with
      | .error e => .error e
      | .ok (BB', CC', F3) =>
          sf_loop G fuel
            { BB := BB', CC := CC'.getD st2.CC, RAISE := R2, FREESET := F3,
              SUPER := st2.SUPER, numCov := st2.numCov } (fk.2.map Prod.fst)

/-- select_feasible -- start from all currently active cubes of `CC` as
candidates and run the absorption loop. -/
def select_feasible (G : Geom) (st : EState) : Except Err EState :=
  let feas := (List.range st.CC.cubes.length).filter
    (fun i => ((st.CC.cubes[i]?).map Cube.active).getD false)
  sf_loop G (feas.length + 1) st feas

/-- The family `B` built by `mincov`: one `force_lower` row per active
OFF-cube. -/
def mincov_rows (G : Geom) (BB : Cover) (RAISE : Finset ℕ) : List (Finset ℕ) :=
  BB.cubes.foldl
    (fun acc p => if p.active then acc ++ [force_lower G ∅ p.bits RAISE] else acc) []

/-- The size guard of `mincov`: walking the rows of `B` with running sum
`nset`, bail out (to the heuristic branch) when a row's output expansion
exceeds 500 or the running sum does. -/
def mincov_guard (G : Geom) : List (Finset ℕ) → ℕ → Bool
  | [], _ => false
  | p :: rest, nset =>
    let d := set_dist p G.outMask
    if 1 < d ∧ 500 < d then true
    else
      let e := if 1 < d then d else 1
      if 500 < nset + e then true
      else mincov_guard G rest (nset + e)

/-- The parts of `s` among `0 .. size-1`, in ascending order (the way the
C code iterates a part set). -/
def partsList (G : Geom) (s : Finset ℕ) : List ℕ :=
  (List.range G.size).filter (fun i => decide (i ∈ s))

/-- Modelled from the spec: `unravel_output(B)` expands a cover so that
each row fixes a single output part. -/
def unravel_output (G : Geom) (B : List (Finset ℕ)) : List (Finset ℕ) :=
  B.flatMap (fun p =>
    let o := p ∩ G.outMask
    if o.card ≤ 1 then [p]
    else (partsList G o).map (fun i => (p \ G.outMask) ∪ {i}))

/-- Whether `X` intersects every non-empty row of `B`. -/
def hitsAll (B : List (Finset ℕ)) (X : Finset ℕ) : Bool :=
  B.all (fun p => decide (p = ∅) || ! decide (p ∩ X = ∅))

/-- Modelled from the spec: `do_sm_minimum_cover(B)` returns a cube
representing a minimum unate cover of the rows of `B`: a
minimum-cardinality set of parts meeting every (non-empty) row, chosen
deterministically. -/
def sm_minimum_cover (G : Geom) (B : List (Finset ℕ)) : Finset ℕ :=
  let u := B.foldr (fun p acc => p ∪ acc) ∅
  ((partsList G u).sublists.map List.toFinset).foldl
    (fun best X => if hitsAll B X && decide (X.card < best.card) then X else best) u

/-- mincov -- build the family of forced-lower rows of the remaining
active OFF-cubes; if the size guard trips, fall back to raising the first
free part (`most_frequent` with a null `CC`) and rerunning `essen_parts`;
otherwise unravel the output parts, solve the unate covering problem, raise
every free part outside the solution, empty the free set and declare `BB`
satisfied.  The extra boolean records whether the covering-solver branch
was taken. -/
def mincov (G : Geom) (BB : Cover) (RAISE FREESET : Finset ℕ) :
    Except Err (Cover × Finset ℕ × Finset ℕ × Bool) :=
  let B := mincov_rows G BB RAISE
  if mincov_guard G B 0 then
    let bi := most_frequent G none FREESET
    let R' := zinsert RAISE bi
    let F' := FREESET \ R'
    match essen_parts G BB none R' F' with
    | .error e => .error e
    | .ok (BB', _, F2) => .ok (BB', R', F2, false)
  else
    let xlower := sm_minimum_cover G (unravel_output G B)
    .ok ({ BB with active_count := 0 }, RAISE ∪ (FREESET \ xlower), ∅, true)

/-- The `while (CC->active_count > 0)` loop of `expand1`: raise the most
frequent free part and rerun `essen_parts`. -/
def mf_loop (G : Geom) : ℕ → Cover → Cover → Finset ℕ → Finset ℕ →
    Except Err (Cover × Cover × Finset ℕ × Finset ℕ)
  | fuel, BB, CC, R, F =>
    if CC.active_count = 0 then .ok (BB, CC, R, F)
    else
      match fuel with
      | 0 => .error .fuel
      | fuel + 1 =>
        let bi := most_frequent G (some CC) F
        let R' := zinsert R bi
        let F' := zremove F bi
        match essen_parts G BB (some CC) R' F' with
        | .error e => .error e
        | .ok (BB', CC', F2) => mf_loop G fuel BB' (CC'.getD CC) R' F2

/-- The `while (BB->active_count > 0)` loop of `expand1`, accumulating the
solver flag of `mincov`. -/
def bb_loop (G : Geom) : ℕ → Cover → Finset ℕ → Finset ℕ → Bool →
    Except Err (Cover × Finset ℕ × Finset ℕ × Bool)
  | fuel, BB, R, F, sv =>
    if BB.active_count = 0 then .ok (BB, R, F, sv)
    else
      match fuel with
      | 0 => .error .fuel
      | fuel + 1 =>
        match mincov G BB R F with
        | .error e => .error e
        | .ok (BB', R', F', sv') => bb_loop G fuel BB' R' F' (sv || sv')

/-- The result of one `expand1` call: the two covers (the expanded cube is
written back into `CC` at its index), the over-expanded cube recorded after
the first `essen_parts`, and whether any `mincov` used the covering
solver. -/
structure E1Out where
  BB : Cover
  CC : Cover
  OX : Finset ℕ
  usedSolver : Bool
deriving DecidableEq

/-- Field-wise decidable equality of cubes (the derived instance does not
reduce in the kernel; this one does). -/
instance cubeDEq : DecidableEq Cube := fun a b =>
  if h : a.bits = b.bits ∧ a.prime = b.prime ∧ a.covered = b.covered ∧
      a.active = b.active ∧ a.nonessen = b.nonessen then
    isTrue (by
      cases a with
      | mk ab ap ac aa an =>
        cases b with
        | mk bb bp bc ba bn =>
          obtain ⟨h1, h2, h3, h4, h5⟩ := h
          dsimp only at h1 h2 h3 h4 h5
          subst h1
          subst h2
          subst h3
          subst h4
          subst h5
          rfl)
  else
    isFalse (fun he => h (by subst he; exact ⟨rfl, rfl, rfl, rfl, rfl⟩))

/-- Field-wise decidable equality of covers. -/
instance coverDEq : DecidableEq Cover := fun a b =>
  if h : a.cubes = b.cubes ∧ a.active_count = b.active_count then
    isTrue (by
      cases a with
      | mk ac an =>
        cases b with
        | mk bc bn =>
          obtain ⟨h1, h2⟩ := h
          dsimp only at h1 h2
          subst h1
          subst h2
          rfl)
  else
    isFalse (fun he => h (by subst he; exact ⟨rfl, rfl⟩))

/-- Field-wise decidable equality of `expand1` results. -/
instance e1outDEq : DecidableEq E1Out := fun a b =>
  if h : a.BB = b.BB ∧ a.CC = b.CC ∧ a.OX = b.OX ∧ a.usedSolver = b.usedSolver then
    isTrue (by
      cases a with
      | mk aB aC aO aU =>
        cases b with
        | mk bB bC bO bU =>
          obtain ⟨h1, h2, h3, h4⟩ := h
          dsimp only at h1 h2 h3 h4
          subst h1
          subst h2
          subst h3
          subst h4
          rfl)
  else
    isFalse (fun he => h (by subst he; exact ⟨rfl, rfl, rfl, rfl⟩))

/-- expand1 -- expand the cube at index `ci` of `CC` against the OFF-set
`BB`, following the source step by step: mark it `PRIME`; activate all of
`BB` and the neither-covered-nor-prime part of `CC`; start `RAISE` at the
cube and `FREESET` at its complement; take out `INIT_LOWER` (calling
`elim_lowering`) when non-empty; run `essen_parts` and record the
over-expanded cube; absorb cubes via `select_feasible` while possible; then
the `most_frequent` loop while `CC` has active cubes; then the `mincov`
loop while `BB` has active cubes; finally raise all remaining free parts
and write the result back with `PRIME` set, `COVERED` cleared, and
`NONESSEN` set when nothing was covered and the over-expanded cube was not
reached. -/
def expand1_core (G : Geom) (BB CC : Cover) (INIT_LOWER : Finset ℕ) (ci : ℕ) :
    Except Err E1Out := do
  let c0 := (CC.cubes.getD ci dfltCube).bits
  let CCp : Cover :=
    { CC with cubes := modifyCube CC.cubes ci (fun q => { q with prime := true }) }
  let BB0 := activateAll BB
  let CC0 : Cover :=
    { cubes := CCp.cubes.map (fun p =>
        if p.covered || p.prime then { p with active := false }
        else { p with active := true }),
      active_count := (CCp.cubes.filter (fun p => !(p.covered || p.prime))).length }
  let FREESET0 := G.fullset \ c0
  let s4 :=
    if INIT_LOWER = ∅ then (BB0, CC0, FREESET0)
    else
      let F1 := FREESET0 \ INIT_LOWER
      let el := elim_lowering G BB0 (some CC0) c0 F1
      (el.1, el.2.getD CC0, F1)
  let (BB1, CC1o, F1) ← essen_parts G s4.1 (some s4.2.1) c0 s4.2.2
  let CC1 := CC1o.getD s4.2.1
  let OX := c0 ∪ F1
  let st0 : EState :=
    { BB := BB1, CC := CC1, RAISE := c0, FREESET := F1, SUPER := c0, numCov := 0 }
  let st1 ← if 0 < CC1.active_count then select_feasible G st0 else .ok st0
  let (BB2, CC2, R2, F2) ← mf_loop G (G.size + 2) st1.BB st1.CC st1.RAISE st1.FREESET
  let (BB3, R3, F3, sv) ← bb_loop G (G.size + 2) BB2 R2 F2 false
  let R4 := R3 ∪ F3
  let CCF : Cover :=
    { CC2 with cubes := modifyCube CC2.cubes ci (fun q =>
        { q with bits := R4, prime := true, covered := false,
                 nonessen := q.nonessen || (st1.numCov = 0 && decide (R4 ≠ OX)) }) }
  return { BB := BB3, CC := CCF, OX := OX, usedSolver := sv }

/-- The source's `expand1` interface: the mutated OFF-set and ON-set. -/
def expand1 (G : Geom) (BB CC : Cover) (INIT_LOWER : Finset ℕ) (ci : ℕ) :
    Except Err (Cover × Cover) :=
  (expand1_core G BB CC INIT_LOWER ci).map (fun o => (o.BB, o.CC))

/-- Modelled from the spec: `mini_sort(F, ascend)` — the external
"chewing-away from the edges" ordering heuristic, modelled as a stable
ascending sort by cube size so that small cubes come first. -/
def mini_sort (F : Cover) : Cover :=
  { F with cubes := List.insertionSort (fun a b => a.bits.card ≤ b.bits.card) F.cubes }

/-- The per-cube iteration of `expand`: each cube that is neither `PRIME`
nor `COVERED` (at its turn) is expanded by `expand1`. -/
def expand_iter (G : Geom) (IL : Finset ℕ) :
    List ℕ → Cover → Cover → Bool → Except Err (Cover × Cover × Bool)
  | [], BB, CC, sv => .ok (BB, CC, sv)
  | i :: rest, BB, CC, sv =>
    let p := CC.cubes.getD i dfltCube
    if !p.prime && !p.covered then
      match expand1_core G BB CC IL i with
      | .error e => .error e
      | .ok o => expand_iter G IL rest o.BB o.CC (sv || o.usedSolver)
    else expand_iter G IL rest BB CC sv

/-- sf_inactive -- physical compaction of a cover down to its active
cubes. -/
def sf_inactive (F : Cover) : Cover :=
  { cubes := F.cubes.filter (fun p => p.active),
    active_count := (F.cubes.filter (fun p => p.active)).length }

/-- expand -- order the cubes, set up `INIT_LOWER` (the output-variable
mask in non-sparse mode), clear `COVERED` and `NONESSEN` everywhere, expand
every non-prime non-covered cube, and compact away the cubes that became
covered.  The traced version also returns whether any expansion used the
`mincov` covering solver. -/
def expandT (G : Geom) (F R : Cover) (nonsparse : Bool) :
    Except Err (Cover × Bool) := do
  let F1 := mini_sort F
  let IL := if nonsparse then (∅ ∪ G.outMask) else (∅ : Finset ℕ)
  let F2 : Cover :=
    { F1 with cubes := F1.cubes.map (fun p => { p with covered := false, nonessen := false }) }
  let (_, CCf, sv) ← expand_iter G IL (List.range F2.cubes.length) R F2 false
  let CCg : Cover :=
    { cubes := CCf.cubes.map (fun p =>
        if p.covered then { p with active := false } else { p with active := true }),
      active_count := (CCf.cubes.filter (fun p => !p.covered)).length }
  let change := CCf.cubes.any (fun p => p.covered)
  return ((if change then sf_inactive CCg else CCg), sv)

/-- The source's `expand` interface. -/
def expand (G : Geom) (F R : Cover) (nonsparse : Bool) : Except Err Cover :=
  (expandT G F R nonsparse).map Prod.fst

/-- All points of the geometry: one part chosen from every variable mask
(a point of the Boolean space; used only by the modelled external
`mark_irredundant`). -/
def allPoints (G : Geom) : List (List ℕ) :=
  G.varMask.foldr
    (fun m acc => (partsList G m).flatMap (fun i => acc.map (fun pt => i :: pt))) [[]]

/-- Whether a point lies inside a cube. -/
def ptInCube (pt : List ℕ) (c : Finset ℕ) : Bool :=
  pt.all (fun i => decide (i ∈ c))

/-- Modelled from the spec: `mark_irredundant(F1, D1)` sets `ACTIVE` on the
cubes that are essential and clears it on the redundant ones; cube `j` is
redundant iff every point it covers is covered by another cube of `F1` or
by `D1`. -/
def mark_irredundant (G : Geom) (F1 D1 : List (Finset ℕ)) : List Bool :=
  (List.range F1.length).map (fun j =>
    let cj := F1.getD j ∅
    ! ((allPoints G).all (fun pt =>
        ! ptInCube pt cj ||
        ((List.range F1.length).any (fun k => k ≠ j && ptInCube pt (F1.getD k ∅)) ||
          D1.any (fun d => ptInCube pt d)))))

/-- The cofactor of a cube against output part `i`: clear all output parts,
then set part `i`. -/
def cofactor_out (G : Geom) (i : ℕ) (b : Finset ℕ) : Finset ℕ :=
  (b \ G.outMask) ∪ {i}

/-- One pass of `mv_reduce` for a single output part `i`: cofactor `F` and
`D` against part `i`, run `mark_irredundant`, and clear part `i` (and the
`PRIME` flag) on every original cube whose cofactor came back
redundant. -/
def mv_reduce_part (G : Geom) (D : Cover) (Fc : Cover) (i : ℕ) : Cover :=
  let idx := (List.range Fc.cubes.length).filter
    (fun j => decide (i ∈ (Fc.cubes.getD j dfltCube).bits))
  let F1 := idx.map (fun j => cofactor_out G i (Fc.cubes.getD j dfltCube).bits)
  let D1 := (D.cubes.filter (fun p => decide (i ∈ p.bits))).map
    (fun p => cofactor_out G i p.bits)
  let act := mark_irredundant G F1 D1
  let dead := ((idx.zip act).filter (fun e => !e.2)).map Prod.fst
  { Fc with cubes := (List.range Fc.cubes.length).map (fun j =>
      let p := Fc.cubes.getD j dfltCube
      if j ∈ dead then { p with bits := p.bits.erase i, prime := false } else p) }

/-- mv_reduce -- for each part of the output variable, reduce the cubes
whose cofactor against that part is redundant; then recount the active
cubes (`sf_active`), deactivate cubes whose output variable became empty,
and compact if anything disappeared. -/
def mv_reduce (G : Geom) (F D : Cover) : Cover :=
  let F1 := (partsList G G.outMask).foldl (mv_reduce_part G D) F
  let F2 : Cover := { F1 with active_count := countActive F1.cubes }
  let F3 := deactWhere F2 (fun p => decide (p.bits ∩ G.outMask = ∅))
  if F3.cubes.length ≠ F3.active_count then sf_inactive F3 else F3

/-- Modelled from the spec: `cover_cost` — literal-count accounting; the
`total` field is modelled as the total number of set parts of the
cover. -/
def cover_cost (F : Cover) : ℕ :=
  (F.cubes.map (fun p => p.bits.card)).sum

/-- The `do { ... } while (TRUE)` loop of `make_sparse`.  The local `cost`
is read before it is ever assigned in the source; its garbage value is the
parameter `cost` here, and it is never recomputed from `F` — faithfully to
the source, which never calls `cover_cost` inside the loop.  `copy_cost`
copies `cost` into `best` (with the opposite argument convention the two
become equal just the same, so the observable behaviour is identical). -/
def ms_loop (G : Geom) : ℕ → ℕ → ℕ → Cover → Cover → Cover → Except Err Cover
  | 0, _, _, _, _, _ => .error .fuel
  | fuel + 1, cost, best, F, D, R =>
    let F1 := mv_reduce G F D
    if cost = best then .ok F1
    else
      let best1 := cost
      match expand G F1 R true with
      | .error e => .error e
      | .ok F2 =>
        if cost = best1 then .ok F2
        else ms_loop G fuel cost best1 F2 D R

/-- make_sparse -- compute the baseline cost and run the reduction loop;
`g` stands for the (uninitialized) value of `cost.total` that the source
reads before assigning it. -/
def make_sparse (G : Geom) (g : ℕ) (F D R : Cover) : Except Err Cover :=
  ms_loop G 1000 g (cover_cost F) F D R

/-- Observation of a cover: bits and flags of every cube in order, plus the
cached active count (used to state concrete evaluations). -/
def obs (F : Cover) : List (Finset ℕ × Bool × Bool × Bool × Bool) × ℕ :=
  (F.cubes.map (fun c => (c.bits, c.prime, c.covered, c.active, c.nonessen)),
   F.active_count)

/-- The orthogonality precondition: no cube of `F` intersects any cube of
`R`. -/
def OrthCovers (G : Geom) (F R : Cover) : Prop :=
  ∀ f ∈ F.cubes, ∀ r ∈ R.cubes, cdist0 G f.bits r.bits = false

/-- All cubes of the cover lie inside the set `s` (a cover of valid cubes
lies inside `fullset`). -/
def CubesIn (F : Cover) (s : Finset ℕ) : Prop :=
  ∀ c ∈ F.cubes, c.bits ⊆ s

/-- A valid cube asserts at least one part of every variable (the spec
discards cubes with an empty variable). -/
def ValidCube (G : Geom) (b : Finset ℕ) : Prop :=
  ∀ m ∈ G.varMask, (b ∩ m).Nonempty

/-- Every variable other than the output one is binary (exactly two
parts). -/
def BinaryNonOut (G : Geom) : Prop :=
  ∀ m ∈ G.varMask, m = G.outMask ∨ m.card = 2

/-- The cached `active_count` agrees with the `ACTIVE` flags. -/
def Lockstep (F : Cover) : Prop :=
  F.active_count = countActive F.cubes

/-- Separation invariant of the expansion: every OFF-cube that has been
deactivated is separated from the over-expanded cube `r = RAISE ∪ FREESET`
in some variable (so it can never be intersected again as the cube only
shrinks). -/
def SepInv (G : Geom) (BB : Cover) (r : Finset ℕ) : Prop :=
  ∀ p ∈ BB.cubes, p.active = false → ∃ m ∈ G.varMask, p.bits ∩ r ∩ m = ∅

/-- Containment invariant: every active ON-cube is inside the
over-expanded cube `r = RAISE ∪ FREESET`. -/
def CCin (CC : Cover) (r : Finset ℕ) : Prop :=
  ∀ p ∈ CC.cubes, p.active = true → p.bits ⊆ r

/-- A lowering witness for part `q`: an OFF-cube that contains `q` and
meets the raising cube in every variable not owning `q`; adding `q` to any
enlargement of the raising cube therefore intersects that OFF-cube. -/
def LowWitness (G : Geom) (Rb : List (Finset ℕ)) (RAISE : Finset ℕ) (q : ℕ) : Prop :=
  ∃ rb ∈ Rb, q ∈ rb ∧ ∀ m ∈ G.varMask, q ∉ m → (rb ∩ RAISE ∩ m).Nonempty

/-- Lowering invariant (for the maximality analysis): every non-output
part inside `fullset` that is neither raised nor free has a lowering
witness among the OFF-cubes. -/
def LowInv (G : Geom) (Rb : List (Finset ℕ)) (RAISE FREESET : Finset ℕ) : Prop :=
  ∀ q ∈ G.fullset, q ∉ G.outMask → q ∉ RAISE → q ∉ FREESET →
    LowWitness G Rb RAISE q

/-- The per-row expansion count of the `mincov` size guard: the number of
output parts of the row when more than one, else 1. -/
def rowExp (G : Geom) (p : Finset ℕ) : ℕ :=
  if 1 < set_dist p G.outMask then set_dist p G.outMask else 1

/-- The declarative form of the `mincov` size-guard condition: some row
expands to more than 500 rows on unravelling, or the total expansion count
exceeds 500. -/
def mincovTrips (G : Geom) (B : List (Finset ℕ)) : Prop :=
  (∃ p ∈ B, 500 < set_dist p G.outMask) ∨ 500 < (B.map (rowExp G)).sum

instance mincovTripsDecidable (G : Geom) (B : List (Finset ℕ)) :
    Decidable (mincovTrips G B) := by
  unfold mincovTrips
  infer_instance

/-- Whether a point (one chosen part per variable) is covered by some cube
of the cover. -/
def coveredBy (F : Cover) (pt : List ℕ) : Bool :=
  F.cubes.any (fun c => ptInCube pt c.bits)

/-- Relation between a cover and its update by the expansion machinery:
every cube keeps its bits and all flags except that its `ACTIVE` flag may
be cleared and — only when the flag `c` permits it (the absorption in
`select_feasible`) — its `COVERED` flag set. -/
def ShrunkBy (c : Bool) (A B : Cover) : Prop :=
  A.cubes.length = B.cubes.length ∧
  ∀ k : ℕ, B.cubes[k]? = A.cubes[k]? ∨
    (∃ p : Cube, A.cubes[k]? = some p ∧
      (B.cubes[k]? = some { p with active := false } ∨
        (c = true ∧ B.cubes[k]? = some { p with active := false, covered := true })))

/-- Deactivation-only cover update (no `COVERED` change). -/
def Deact (A B : Cover) : Prop :=
  ShrunkBy false A B

/-- Cover update that may also absorb (set `COVERED`). -/
def Shrunk (A B : Cover) : Prop :=
  ShrunkBy true A B

/-- Cover update by the expansion machinery where every newly `COVERED`
cube lies inside the set `R` (the raising cube at absorption time, which
only grows afterwards). -/
def ShrunkWithin (R : Finset ℕ) (A B : Cover) : Prop :=
  A.cubes.length = B.cubes.length ∧
  ∀ k : ℕ, B.cubes[k]? = A.cubes[k]? ∨
    (∃ p : Cube, A.cubes[k]? = some p ∧
      (B.cubes[k]? = some { p with active := false } ∨
        (B.cubes[k]? = some { p with active := false, covered := true } ∧
          p.bits ⊆ R)))

/-! ### Facts about the cover-shrinking relation -/

lemma shrunkBy_self (c : Bool) (A : Cover) : ShrunkBy c A A := by
  exact ⟨rfl, fun _ => Or.inl rfl⟩

lemma ShrunkBy.of_false {c : Bool} {A B : Cover} (h : ShrunkBy false A B) :
    ShrunkBy c A B := by
  obtain ⟨hlen, hall⟩ := h
  refine ⟨hlen, fun k => ?_⟩
  rcases hall k with h1 | ⟨p, hp, h2 | ⟨hc, _⟩⟩
  · exact Or.inl h1
  · exact Or.inr ⟨p, hp, Or.inl h2⟩
  · exact (Bool.false_ne_true hc).elim

lemma ShrunkBy.trans {c : Bool} {A B C : Cover}
    (h1 : ShrunkBy c A B) (h2 : ShrunkBy c B C) : ShrunkBy c A C := by
  obtain ⟨hlen1, hall1⟩ := h1
  obtain ⟨hlen2, hall2⟩ := h2
  refine ⟨hlen1.trans hlen2, fun k => ?_⟩
  rcases hall2 k with hbc | ⟨q, hq, hc⟩
  · rcases hall1 k with hab | ⟨p, hp, hb⟩
    · exact Or.inl (hbc.trans hab)
    · exact Or.inr ⟨p, hp, by rw [hbc]; exact hb⟩
  · rcases hall1 k with hab | ⟨p, hp, hb⟩
    · rw [hab] at hq
      rcases hc with hc | ⟨hcc, hc⟩
      · exact Or.inr ⟨q, hq, Or.inl hc⟩
      · exact Or.inr ⟨q, hq, Or.inr ⟨hcc, hc⟩⟩
    · have hq2 : B.cubes[k]? = some q := hq
      rcases hb with hb | ⟨hcc, hb⟩
      · rw [hb] at hq2
        rcases Option.some.inj hq2 with rfl
        rcases hc with hc | ⟨hcc2, hc⟩
        · exact Or.inr ⟨p, hp, Or.inl hc⟩
        · exact Or.inr ⟨p, hp, Or.inr ⟨hcc2, hc⟩⟩
      · rw [hb] at hq2
        rcases Option.some.inj hq2 with rfl
        rcases hc with hc | ⟨hcc2, hc⟩
        · exact Or.inr ⟨p, hp, Or.inr ⟨hcc, hc⟩⟩
        · exact Or.inr ⟨p, hp, Or.inr ⟨hcc2, hc⟩⟩

lemma ShrunkBy.length_eq {c : Bool} {A B : Cover} (h : ShrunkBy c A B) :
    A.cubes.length = B.cubes.length := by
  obtain ⟨hlen, _⟩ := h
  exact hlen

lemma ShrunkBy.bits_get {c : Bool} {A B : Cover} (h : ShrunkBy c A B) (k : ℕ) :
    (B.cubes[k]?).map Cube.bits = (A.cubes[k]?).map Cube.bits := by
  obtain ⟨_, hall⟩ := h
  rcases hall k with h1 | ⟨p, hp, h2 | ⟨_, h2⟩⟩
  · rw [h1]
  · rw [h2, hp]; rfl
  · rw [h2, hp]; rfl

lemma ShrunkBy.prime_get {c : Bool} {A B : Cover} (h : ShrunkBy c A B) (k : ℕ) :
    (B.cubes[k]?).map Cube.prime = (A.cubes[k]?).map Cube.prime := by
  obtain ⟨_, hall⟩ := h
  rcases hall k with h1 | ⟨p, hp, h2 | ⟨_, h2⟩⟩
  · rw [h1]
  · rw [h2, hp]; rfl
  · rw [h2, hp]; rfl

lemma ShrunkBy.active_get {c : Bool} {A B : Cover} (h : ShrunkBy c A B) (k : ℕ)
    {q : Cube} (hq : B.cubes[k]? = some q) (ha : q.active = true) :
    A.cubes[k]? = some q := by
  obtain ⟨_, hall⟩ := h
  rcases hall k with h1 | ⟨p, hp, h2 | ⟨_, h2⟩⟩
  · rw [← h1, hq]
  · rw [hq] at h2
    rcases Option.some.inj h2 with rfl
    simp at ha
  · rw [hq] at h2
    rcases Option.some.inj h2 with rfl
    simp at ha

lemma ShrunkBy.covered_get {A B : Cover} (h : ShrunkBy false A B) (k : ℕ) :
    (B.cubes[k]?).map Cube.covered = (A.cubes[k]?).map Cube.covered := by
  obtain ⟨_, hall⟩ := h
  rcases hall k with h1 | ⟨p, hp, h2 | ⟨hc, _⟩⟩
  · rw [h1]
  · rw [h2, hp]; rfl
  · exact (Bool.false_ne_true hc).elim

lemma ShrunkBy.mem {c : Bool} {A B : Cover} (h : ShrunkBy c A B) {q : Cube}
    (hq : q ∈ B.cubes) :
    ∃ p ∈ A.cubes, q = p ∨ q = { p with active := false } ∨
      q = { p with active := false, covered := true } := by
  obtain ⟨_, hall⟩ := h
  rcases List.mem_iff_getElem?.1 hq with ⟨k, hk⟩
  rcases hall k with h1 | ⟨p, hp, h2 | ⟨_, h2⟩⟩
  · rw [h1] at hk
    exact ⟨q, List.mem_iff_getElem?.2 ⟨k, hk⟩, Or.inl rfl⟩
  · rw [hk] at h2
    rcases Option.some.inj h2 with rfl
    exact ⟨p, List.mem_iff_getElem?.2 ⟨k, hp⟩, Or.inr (Or.inl rfl)⟩
  · rw [hk] at h2
    rcases Option.some.inj h2 with rfl
    exact ⟨p, List.mem_iff_getElem?.2 ⟨k, hp⟩, Or.inr (Or.inr rfl)⟩

lemma deactWhere_get (F : Cover) (f : Cube → Bool) (k : ℕ) :
    (deactWhere F f).cubes[k]? =
      (F.cubes[k]?).map (fun p =>
        if p.active && f p then { p with active := false } else p) := by
  simp [deactWhere]

lemma deactWhere_length (F : Cover) (f : Cube → Bool) :
    (deactWhere F f).cubes.length = F.cubes.length := by
  simp [deactWhere]

lemma deactWhere_deact (F : Cover) (f : Cube → Bool) :
    Deact F (deactWhere F f) := by
  refine ⟨(deactWhere_length F f).symm, fun k => ?_⟩
  rw [deactWhere_get]
  cases hk : F.cubes[k]? with
  | none => exact Or.inl (by simp)
  | some p =>
    by_cases hc : p.active ∧ f p = true
    · refine Or.inr ⟨p, rfl, Or.inl ?_⟩
      simp only [Option.map_some']
      rw [if_pos (by simp [hc.1, hc.2])]
    · left
      simp only [Option.map_some']
      rw [if_neg (by simpa [Bool.and_eq_true] using hc)]

lemma deactWhere_shrunk (F : Cover) (f : Cube → Bool) :
    Shrunk F (deactWhere F f) :=
  (deactWhere_deact F f).of_false

lemma shrunkWithin_refl (R : Finset ℕ) (A : Cover) : ShrunkWithin R A A :=
  ⟨rfl, fun _ => Or.inl rfl⟩

lemma ShrunkWithin.monoR {R S : Finset ℕ} {A B : Cover} (hR : R ⊆ S)
    (h : ShrunkWithin R A B) : ShrunkWithin S A B := by
  obtain ⟨hlen, hall⟩ := h
  refine ⟨hlen, fun k => ?_⟩
  rcases hall k with h1 | ⟨p, hp, h2 | ⟨h2, hb⟩⟩
  · exact Or.inl h1
  · exact Or.inr ⟨p, hp, Or.inl h2⟩
  · exact Or.inr ⟨p, hp, Or.inr ⟨h2, hb.trans hR⟩⟩

lemma ShrunkWithin.of_deact {R : Finset ℕ} {A B : Cover} (h : Deact A B) :
    ShrunkWithin R A B := by
  obtain ⟨hlen, hall⟩ := h
  refine ⟨hlen, fun k => ?_⟩
  rcases hall k with h1 | ⟨p, hp, h2 | ⟨hc, _⟩⟩
  · exact Or.inl h1
  · exact Or.inr ⟨p, hp, Or.inl h2⟩
  · exact (Bool.false_ne_true hc).elim

lemma ShrunkWithin.transW {R : Finset ℕ} {A B C : Cover}
    (h1 : ShrunkWithin R A B) (h2 : ShrunkWithin R B C) :
    ShrunkWithin R A C := by
  obtain ⟨hlen1, hall1⟩ := h1
  obtain ⟨hlen2, hall2⟩ := h2
  refine ⟨hlen1.trans hlen2, fun k => ?_⟩
  rcases hall2 k with hbc | ⟨q, hq, hc⟩
  · rcases hall1 k with hab | ⟨p, hp, hb⟩
    · exact Or.inl (hbc.trans hab)
    · rw [hbc]
      exact Or.inr ⟨p, hp, hb⟩
  · rcases hall1 k with hab | ⟨p, hp, hb⟩
    · rw [hab] at hq
      exact Or.inr ⟨q, hq, hc⟩
    · have hq2 : B.cubes[k]? = some q := hq
      rcases hb with hb | ⟨hb, hpb⟩
      · rw [hb] at hq2
        rcases Option.some.inj hq2 with rfl
        rcases hc with hc | ⟨hc, hcb⟩
        · exact Or.inr ⟨p, hp, Or.inl hc⟩
        · exact Or.inr ⟨p, hp, Or.inr ⟨hc, hcb⟩⟩
      · rw [hb] at hq2
        rcases Option.some.inj hq2 with rfl
        rcases hc with hc | ⟨hc, _⟩
        · exact Or.inr ⟨p, hp, Or.inr ⟨hc, hpb⟩⟩
        · exact Or.inr ⟨p, hp, Or.inr ⟨hc, hpb⟩⟩

lemma ShrunkWithin.len_eq {R : Finset ℕ} {A B : Cover}
    (h : ShrunkWithin R A B) : A.cubes.length = B.cubes.length := by
  obtain ⟨hlen, _⟩ := h
  exact hlen

/-! ### Structural characterization of essen_parts and essen_raising -/

lemma essen_parts_ok_cases {G : Geom} {BB : Cover} {CC : Option Cover}
    {R F : Finset ℕ} {BB' : Cover} {CC' : Option Cover} {F' : Finset ℕ}
    (h : essen_parts G BB CC R F = .ok (BB', CC', F')) :
    (BB.cubes.foldl (fun x p => if p.active && decide (cdist01 G p.bits R = 1) then
        force_lower G x p.bits R else x) ∅ = ∅ ∧
      BB' = deactWhere BB (fun p => decide (cdist01 G p.bits R = 1)) ∧
      CC' = CC ∧ F' = F) ∨
    (F' = F \ (BB.cubes.foldl (fun x p => if p.active && decide (cdist01 G p.bits R = 1) then
        force_lower G x p.bits R else x) ∅) ∧
      BB' = deactWhere (deactWhere BB (fun p => decide (cdist01 G p.bits R = 1)))
        (fun p => ! cdist0 G p.bits (R ∪ F')) ∧
      CC' = CC.map (fun cc => deactWhere cc (fun p => ! decide (p.bits ⊆ R ∪ F')))) := by
  unfold essen_parts at h
  by_cases hany : BB.cubes.any (fun p => p.active && decide (cdist01 G p.bits R = 0))
  · rw [if_pos hany] at h
    exact absurd h (by intro hc; exact Except.noConfusion hc)
  · rw [if_neg hany] at h
    dsimp only at h
    by_cases hxl : BB.cubes.foldl (fun x p =>
        if p.active && decide (cdist01 G p.bits R = 1) then
          force_lower G x p.bits R else x) ∅ = (∅ : Finset ℕ)
    · rw [if_pos hxl] at h
      have h3 := Except.ok.inj h
      rw [Prod.mk.injEq, Prod.mk.injEq] at h3
      obtain ⟨h4, h5, h6⟩ := h3
      exact Or.inl ⟨hxl, h4.symm, h5.symm, h6.symm⟩
    · rw [if_neg hxl] at h
      cases hel : elim_lowering G (deactWhere BB (fun p => decide (cdist01 G p.bits R = 1)))
          CC R (F \ BB.cubes.foldl (fun x p =>
            if p.active && decide (cdist01 G p.bits R = 1) then
              force_lower G x p.bits R else x) ∅) with
      | mk eB eC =>
        rw [hel] at h
        dsimp only at h
        have h3 := Except.ok.inj h
        rw [Prod.mk.injEq, Prod.mk.injEq] at h3
        obtain ⟨h4, h5, h6⟩ := h3
        right
        refine ⟨h6.symm, ?_, ?_⟩
        · rw [← h4, h6.symm]
          have : eB = (elim_lowering G (deactWhere BB (fun p => decide (cdist01 G p.bits R = 1)))
              CC R (F \ BB.cubes.foldl (fun x p =>
                if p.active && decide (cdist01 G p.bits R = 1) then
                  force_lower G x p.bits R else x) ∅)).1 := by
            rw [hel]
          rw [this]
          rfl
        · rw [← h5, h6.symm]
          have : eC = (elim_lowering G (deactWhere BB (fun p => decide (cdist01 G p.bits R = 1)))
              CC R (F \ BB.cubes.foldl (fun x p =>
                if p.active && decide (cdist01 G p.bits R = 1) then
                  force_lower G x p.bits R else x) ∅)).2 := by
            rw [hel]
          rw [this]
          rfl

lemma essen_raising_spec (G : Geom) (BB : Cover) (R F : Finset ℕ) :
    R ⊆ (essen_raising G BB R F).1 ∧
    (essen_raising G BB R F).1 ∪ (essen_raising G BB R F).2 = R ∪ F ∧
    (essen_raising G BB R F).2 ⊆ F ∧
    (Disjoint R F → Disjoint (essen_raising G BB R F).1 (essen_raising G BB R F).2) := by
  unfold essen_raising
  dsimp only
  refine ⟨Finset.subset_union_left, ?_, ?_, ?_⟩
  · ext x
    simp only [Finset.mem_union, Finset.mem_sdiff]
    tauto
  · intro x hx
    simp only [Finset.mem_sdiff] at hx
    exact hx.1
  · intro hd
    rw [Finset.disjoint_left]
    intro x hx hx2
    simp only [Finset.mem_union, Finset.mem_sdiff] at hx hx2
    rcases hx with hx | hx
    · exact (Finset.disjoint_left.1 hd hx) hx2.1
    · exact hx2.2 ⟨hx.1, hx.2⟩

/-! ### Monotonicity plumbing for the expansion loops -/

lemma foldl_inv {α β : Type _} (P : β → Prop) (f : β → α → β) :
    ∀ (l : List α) (b : β), P b → (∀ b a, a ∈ l → P b → P (f b a)) →
      P (l.foldl f b) := by
  intro l
  induction l with
  | nil => intro b h0 _; exact h0
  | cons a l ih =>
    intro b h0 hstep
    rw [List.foldl_cons]
    exact ih _ (hstep b a (List.mem_cons_self a l) h0)
      (fun b x hx => hstep b x (List.mem_cons_of_mem a hx))

lemma CCin.mono {CC : Cover} {r s : Finset ℕ} (hr : r ⊆ s) (h : CCin CC r) :
    CCin CC s :=
  fun p hp ha => (h p hp ha).trans hr

lemma CCin_deactWhere_subset (cc : Cover) (r : Finset ℕ) :
    CCin (deactWhere cc (fun p => ! decide (p.bits ⊆ r))) r := by
  intro q hq ha
  simp only [deactWhere, List.mem_map] at hq
  obtain ⟨p, hp, he⟩ := hq
  by_cases hc : p.active && ! decide (p.bits ⊆ r)
  · rw [if_pos hc] at he
    rw [← he] at ha
    simp at ha
  · rw [if_neg hc] at he
    rw [← he] at ha ⊢
    have h2 : ¬ ((! decide (p.bits ⊆ r)) = true) := fun hb => hc (by rw [ha, hb]; rfl)
    simpa using h2

lemma deactWhere_ccin {cc : Cover} {r : Finset ℕ} (f : Cube → Bool)
    (h : CCin cc r) : CCin (deactWhere cc f) r := by
  intro q hq ha
  simp only [deactWhere, List.mem_map] at hq
  obtain ⟨p, hp, he⟩ := hq
  by_cases hc : p.active && f p
  · rw [if_pos hc] at he
    rw [← he] at ha
    simp at ha
  · rw [if_neg hc] at he
    rw [← he] at ha ⊢
    exact h p hp ha

lemma zinsert_zremove_bounds {F : Finset ℕ} {bi : ℤ} (R : Finset ℕ)
    (h : bi = -1 ∨ (0 ≤ bi ∧ bi.toNat ∈ F)) :
    R ⊆ zinsert R bi ∧ zinsert R bi ⊆ R ∪ F ∧ zremove F bi ⊆ F := by
  rcases h with rfl | ⟨h0, hm⟩
  · rw [zinsert, if_neg (by decide), zremove, if_neg (by decide)]
    exact ⟨subset_rfl, Finset.subset_union_left, subset_rfl⟩
  · rw [zinsert, if_pos h0, zremove, if_pos h0]
    refine ⟨Finset.subset_insert _ _, ?_, Finset.erase_subset _ _⟩
    exact Finset.insert_subset_iff.2 ⟨Finset.mem_union_right _ hm, Finset.subset_union_left⟩

lemma modifyCube_length (l : List Cube) (i : ℕ) (f : Cube → Cube) :
    (modifyCube l i f).length = l.length := by
  unfold modifyCube
  cases h : l[i]? with
  | none => rfl
  | some p => simp

lemma modifyCube_get (l : List Cube) (i : ℕ) (f : Cube → Cube) (k : ℕ) :
    (modifyCube l i f)[k]? = if k = i then (l[i]?).map f else l[k]? := by
  unfold modifyCube
  cases h : l[i]? with
  | none =>
    by_cases hk : k = i
    · subst hk
      simp [h]
    · rw [if_neg hk]
  | some p =>
    by_cases hk : k = i
    · subst hk
      have hlen : k < l.length := by
        by_contra hge
        rw [List.getElem?_eq_none (Nat.le_of_not_lt hge)] at h
        exact Option.noConfusion h
      rw [if_pos rfl, List.getElem?_set_self hlen]
      rfl
    · rw [if_neg hk, List.getElem?_set_ne (fun he => hk he.symm)]

lemma modifyCube_mem {l : List Cube} {i : ℕ} {f : Cube → Cube} {q : Cube}
    (hq : q ∈ modifyCube l i f) : q ∈ l ∨ ∃ p, l[i]? = some p ∧ q = f p := by
  rcases List.mem_iff_getElem?.1 hq with ⟨k, hk⟩
  rw [modifyCube_get] at hk
  by_cases hki : k = i
  · rw [if_pos hki] at hk
    cases h : l[i]? with
    | none =>
      rw [h] at hk
      exact absurd hk (by simp)
    | some p =>
      rw [h] at hk
      exact Or.inr ⟨p, rfl, (Option.some.inj hk).symm⟩
  · rw [if_neg hki] at hk
    exact Or.inl (List.mem_iff_getElem?.2 ⟨k, hk⟩)

lemma modifyCube_bits_get (l : List Cube) (i : ℕ) (f : Cube → Cube)
    (hf : ∀ q, (f q).bits = q.bits) (k : ℕ) :
    ((modifyCube l i f)[k]?).map Cube.bits = (l[k]?).map Cube.bits := by
  rw [modifyCube_get]
  by_cases hk : k = i
  · subst hk
    rw [if_pos rfl]
    cases l[k]? with
    | none => rfl
    | some p => simp [hf]
  · rw [if_neg hk]

lemma elim_lowering_fst (G : Geom) (BB : Cover) (CC : Option Cover)
    (R F : Finset ℕ) :
    (elim_lowering G BB CC R F).1 =
      deactWhere BB (fun p => ! cdist0 G p.bits (R ∪ F)) := rfl

lemma elim_lowering_snd (G : Geom) (BB : Cover) (CC : Option Cover)
    (R F : Finset ℕ) :
    (elim_lowering G BB CC R F).2 =
      CC.map (fun cc => deactWhere cc (fun p => ! decide (p.bits ⊆ R ∪ F))) := rfl

/-- Postcondition of a successful `essen_parts`: the free set only loses
parts, the OFF-set is only deactivated, and an ON-set stays inside the
(possibly shrunk) over-expanded cube. -/
lemma essen_parts_post {G : Geom} {BB : Cover} {CC : Option Cover}
    {R F : Finset ℕ} {BB' : Cover} {CC' : Option Cover} {F' : Finset ℕ}
    (h : essen_parts G BB CC R F = .ok (BB', CC', F')) :
    F' ⊆ F ∧ Deact BB BB' ∧ BB'.cubes.length = BB.cubes.length ∧
    (CC = none → CC' = none) ∧
    (∀ cc, CC = some cc → ∃ cc', CC' = some cc' ∧
      cc'.cubes.length = cc.cubes.length ∧
      (CCin cc (R ∪ F) → CCin cc' (R ∪ F'))) := by
  rcases essen_parts_ok_cases h with ⟨_, hBB, hCC, hF⟩ | ⟨hF, hBB, hCC⟩
  · subst hF
    refine ⟨subset_rfl, ?_, ?_, ?_, ?_⟩
    · rw [hBB]; exact deactWhere_deact _ _
    · rw [hBB, deactWhere_length]
    · intro hn; rw [hCC, hn]
    · intro cc hc
      exact ⟨cc, by rw [hCC, hc], rfl, fun hin => hin⟩
  · refine ⟨?_, ?_, ?_, ?_, ?_⟩
    · rw [hF]; exact Finset.sdiff_subset
    · rw [hBB]
      exact (deactWhere_deact _ _).trans (deactWhere_deact _ _)
    · rw [hBB, deactWhere_length, deactWhere_length]
    · intro hn; rw [hCC, hn]; rfl
    · intro cc hc
      refine ⟨deactWhere cc (fun p => ! decide (p.bits ⊆ R ∪ F')), ?_, ?_, ?_⟩
      · rw [hCC, hc]; rfl
      · rw [deactWhere_length]
      · intro _
        exact CCin_deactWhere_subset cc (R ∪ F')

/-- Invariant of the `select_feasible` filtering pass: `RAISE`, `FREESET`,
`BB` and the number of ON-cubes are untouched, active ON-cubes stay inside
`r = RAISE ∪ FREESET`, and every kept candidate's cube lies inside `r`. -/
lemma sf_filter_inv (G : Geom) (st : EState) (feas : List ℕ)
    (hCC : CCin st.CC (st.RAISE ∪ st.FREESET)) :
    (sf_filter G st feas).1.RAISE = st.RAISE ∧
    (sf_filter G st feas).1.FREESET = st.FREESET ∧
    (sf_filter G st feas).1.BB = st.BB ∧
    (sf_filter G st feas).1.CC.cubes.length = st.CC.cubes.length ∧
    CCin (sf_filter G st feas).1.CC (st.RAISE ∪ st.FREESET) ∧
    ∀ e ∈ (sf_filter G st feas).2,
      ((((sf_filter G st feas).1.CC.cubes[e.1]?).map Cube.bits).getD ∅ : Finset ℕ) ⊆
        st.RAISE ∪ st.FREESET := by
  unfold sf_filter
  refine foldl_inv
    (fun acc : EState × List (ℕ × Finset ℕ) =>
      acc.1.RAISE = st.RAISE ∧ acc.1.FREESET = st.FREESET ∧ acc.1.BB = st.BB ∧
      acc.1.CC.cubes.length = st.CC.cubes.length ∧
      CCin acc.1.CC (st.RAISE ∪ st.FREESET) ∧
      ∀ e ∈ acc.2, (((acc.1.CC.cubes[e.1]?).map Cube.bits).getD ∅ : Finset ℕ) ⊆
        st.RAISE ∪ st.FREESET)
    _ feas (st, []) ⟨rfl, rfl, rfl, rfl, hCC, by simp⟩ ?_
  intro acc i _ hP
  obtain ⟨h1, h2, h3, h4, h5, h6⟩ := hP
  dsimp only
  cases hpi : acc.1.CC.cubes[i]? with
  | none => exact ⟨h1, h2, h3, h4, h5, h6⟩
  | some p =>
    dsimp only
    by_cases hact : p.active = true
    · rw [if_pos hact]
      by_cases hsub : p.bits ⊆ acc.1.RAISE
      · rw [if_pos hsub]
        refine ⟨h1, h2, h3, ?_, ?_, ?_⟩
        · dsimp only
          rw [modifyCube_length]
          exact h4
        · intro q hq ha
          dsimp only at hq
          rcases modifyCube_mem hq with hq2 | ⟨p2, _, rfl⟩
          · exact h5 q hq2 ha
          · simp at ha
        · intro e he
          dsimp only
          rw [modifyCube_bits_get acc.1.CC.cubes i
            (fun q => { q with active := false, covered := true }) (fun q => rfl)]
          exact h6 e he
      · rw [if_neg hsub]
        cases hfc : feasibly_covered G acc.1.BB p.bits acc.1.RAISE with
        | none => exact ⟨h1, h2, h3, h4, h5, h6⟩
        | some nl =>
          refine ⟨h1, h2, h3, h4, h5, ?_⟩
          intro e he
          rcases List.mem_append.1 he with he2 | he2
          · exact h6 e he2
          · rcases List.mem_singleton.1 he2 with rfl
            dsimp only
            rw [hpi]
            exact h5 p (List.mem_iff_getElem?.2 ⟨i, hpi⟩) hact
    · rw [if_neg hact]
      exact ⟨h1, h2, h3, h4, h5, h6⟩

/-- The candidate committed by `select_feasible` lies inside `r` whenever
every kept candidate's cube does. -/
lemma sf_best_subset {CCcubes : List Cube} {FS r : Finset ℕ}
    {kept : List (ℕ × Finset ℕ)}
    (h : ∀ e ∈ kept, (((CCcubes[e.1]?).map Cube.bits).getD ∅ : Finset ℕ) ⊆ r) :
    sf_best CCcubes FS kept ⊆ r := by
  unfold sf_best
  dsimp only
  refine foldl_inv (fun res : Finset ℕ × ℕ × ℕ => res.1 ⊆ r) _ kept (∅, 0, 9999)
    (Finset.empty_subset r) ?_
  intro res e he hres
  dsimp only
  split
  · exact h e he
  · split
    · exact h e he
    · exact hres

/-- The `select_feasible` filtering pass only deactivates ON-cubes or
absorbs them into `RAISE`. -/
lemma sf_filter_shrunk (G : Geom) (st : EState) (feas : List ℕ) :
    ShrunkWithin st.RAISE st.CC (sf_filter G st feas).1.CC := by
  unfold sf_filter
  refine (foldl_inv
    (fun acc : EState × List (ℕ × Finset ℕ) =>
      acc.1.RAISE = st.RAISE ∧ ShrunkWithin st.RAISE st.CC acc.1.CC)
    _ feas (st, []) ⟨rfl, shrunkWithin_refl _ _⟩ ?_).2
  intro acc i _ hP
  obtain ⟨h1, h2⟩ := hP
  dsimp only
  cases hpi : acc.1.CC.cubes[i]? with
  | none => exact ⟨h1, h2⟩
  | some p =>
    dsimp only
    by_cases hact : p.active = true
    · rw [if_pos hact]
      by_cases hsub : p.bits ⊆ acc.1.RAISE
      · rw [if_pos hsub]
        refine ⟨h1, h2.transW ⟨(modifyCube_length _ _ _).symm, fun k => ?_⟩⟩
        dsimp only
        rw [modifyCube_get]
        by_cases hk : k = i
        · subst hk
          rw [if_pos rfl, hpi]
          refine Or.inr ⟨p, rfl, Or.inr ⟨rfl, ?_⟩⟩
          rw [← h1]
          exact hsub
        · rw [if_neg hk]
          exact Or.inl rfl
      · rw [if_neg hsub]
        cases hfc : feasibly_covered G acc.1.BB p.bits acc.1.RAISE with
        | none => exact ⟨h1, h2⟩
        | some nl => exact ⟨h1, h2⟩
    · rw [if_neg hact]
      exact ⟨h1, h2⟩

/-- A successful `essen_parts` only deactivates ON-cubes. -/
lemma essen_parts_cc_deact {G : Geom} {BB cc : Cover} {CC' : Option Cover}
    {R F F' : Finset ℕ} {BB' : Cover}
    (h : essen_parts G BB (some cc) R F = .ok (BB', CC', F')) :
    ∃ cc', CC' = some cc' ∧ Deact cc cc' := by
  rcases essen_parts_ok_cases h with ⟨_, _, hCC, _⟩ | ⟨_, _, hCC⟩
  · exact ⟨cc, hCC, shrunkBy_self false cc⟩
  · refine ⟨deactWhere cc (fun p => ! decide (p.bits ⊆ R ∪ F')), ?_, ?_⟩
    · rw [hCC]
      rfl
    · exact deactWhere_deact _ _

/-- Monotonicity through the `select_feasible` loop: `RAISE` only grows,
`RAISE ∪ FREESET` only shrinks, active ON-cubes stay inside it, the number
of ON-cubes is unchanged, and ON-cubes are only deactivated or absorbed
inside the final `RAISE`. -/
lemma sf_loop_inv (G : Geom) :
    ∀ (fuel : ℕ) (st : EState) (feas : List ℕ) (st' : EState),
      sf_loop G fuel st feas = .ok st' →
      CCin st.CC (st.RAISE ∪ st.FREESET) →
      st.RAISE ⊆ st'.RAISE ∧
      st'.RAISE ∪ st'.FREESET ⊆ st.RAISE ∪ st.FREESET ∧
      CCin st'.CC (st'.RAISE ∪ st'.FREESET) ∧
      st'.CC.cubes.length = st.CC.cubes.length ∧
      ShrunkWithin st'.RAISE st.CC st'.CC := by
  intro fuel
  induction fuel with
  | zero =>
    intro st feas st' h _
    exact absurd h (fun hc => Except.noConfusion hc)
  | succ fuel ih =>
    intro st feas st' h hCC
    rw [sf_loop] at h
    obtain ⟨hrs, hru, hfs, _⟩ := essen_raising_spec G st.BB st.RAISE st.FREESET
    have hCC1 : CCin st.CC
        ((essen_raising G st.BB st.RAISE st.FREESET).1 ∪
         (essen_raising G st.BB st.RAISE st.FREESET).2) := by
      rw [hru]
      exact hCC
    obtain ⟨hf1, hf2, hf3, hf4, hf5, hf6⟩ := sf_filter_inv G
      { st with RAISE := (essen_raising G st.BB st.RAISE st.FREESET).1,
                FREESET := (essen_raising G st.BB st.RAISE st.FREESET).2 } feas hCC1
    have hfilter := sf_filter_shrunk G
      { st with RAISE := (essen_raising G st.BB st.RAISE st.FREESET).1,
                FREESET := (essen_raising G st.BB st.RAISE st.FREESET).2 } feas
    dsimp only at hf1 hf2 hf3 hf4 hf5 hf6 hfilter
    dsimp only at h
    split at h
    · -- no feasible candidate: the filtered state is returned
      have hst2 := (Except.ok.inj h).symm
      subst hst2
      refine ⟨?_, ?_, ?_, hf4, hfilter.monoR (le_of_eq hf1.symm)⟩
      · rw [hf1]
        exact hrs
      · rw [hf1, hf2, hru]
      · rw [hf1, hf2, hru]
        exact hru ▸ hf5
    · -- a candidate is committed and essen_parts rerun
      split at h
      · exact absurd h (fun hc => Except.noConfusion hc)
      · rename_i BB2 CC2 F3 hep
        obtain ⟨hF3, _, _, _, hccs⟩ := essen_parts_post hep
        obtain ⟨cc2, hcc2, hlen2, hin2⟩ := hccs _ rfl
        obtain ⟨cc2b, hcc2b, hdeact⟩ := essen_parts_cc_deact hep
        rw [hcc2] at hcc2b
        rcases Option.some.inj hcc2b with rfl
        rw [hcc2] at h
        obtain ⟨i1, i2, i3, i4, i5⟩ := ih _ _ st' h (by
          dsimp only [Option.getD]
          apply hin2
          refine CCin.mono ?_ hf5
          intro x hx
          rw [Finset.union_sdiff_self_eq_union]
          rcases Finset.mem_union.1 hx with hx2 | hx2
          · refine Finset.mem_union_left _ (Finset.mem_union_left _ ?_)
            rw [hf1]
            exact hx2
          · refine Finset.mem_union_right _ ?_
            rw [hf2]
            exact hx2)
        dsimp only at i1 i2 i3 i4 i5
        refine ⟨?_, ?_, i3, i4.trans (hlen2.trans hf4), ?_⟩
        rotate_left 2
        · refine ((hfilter.monoR ?_).transW
            ((ShrunkWithin.of_deact hdeact).transW i5))
          exact (le_of_eq hf1.symm).trans (Finset.subset_union_left.trans i1)
        · refine (hrs.trans ?_).trans i1
          intro x hx
          refine Finset.mem_union_left _ ?_
          rw [hf1]
          exact hx
        · refine i2.trans ((Finset.union_subset_union subset_rfl hF3).trans ?_)
          rw [Finset.union_sdiff_self_eq_union]
          refine Finset.union_subset (Finset.union_subset ?_
            (sf_best_subset (fun e he => (hf6 e he).trans (le_of_eq hru)))) ?_
          · intro x hx
            rw [hf1] at hx
            rw [← hru]
            exact Finset.mem_union_left _ hx
          · intro x hx
            rw [hf2] at hx
            rw [← hru]
            exact Finset.mem_union_right _ hx

/-! ### Generic helper lemmas -/

lemma foldl_union_mem {β : Type _} (f : β → Finset ℕ) (g : β → Bool) :
    ∀ (l : List β) (x : Finset ℕ) (q : ℕ),
      (q ∈ l.foldl (fun x p => if g p then x ∪ f p else x) x ↔
        q ∈ x ∨ ∃ p ∈ l, g p = true ∧ q ∈ f p) := by
  intro l
  induction l with
  | nil => simp
  | cons a l ih =>
    intro x q
    simp only [List.foldl_cons]
    by_cases hg : g a
    · rw [if_pos hg, ih]
      simp only [Finset.mem_union, List.mem_cons]
      constructor
      · rintro ((h | h) | ⟨p, hp, hgp, hq⟩)
        · exact Or.inl h
        · exact Or.inr ⟨a, Or.inl rfl, hg, h⟩
        · exact Or.inr ⟨p, Or.inr hp, hgp, hq⟩
      · rintro (h | ⟨p, (rfl | hp), hgp, hq⟩)
        · exact Or.inl (Or.inl h)
        · exact Or.inl (Or.inr hq)
        · exact Or.inr ⟨p, hp, hgp, hq⟩
    · rw [if_neg hg, ih]
      simp only [List.mem_cons]
      constructor
      · rintro (h | ⟨p, hp, hgp, hq⟩)
        · exact Or.inl h
        · exact Or.inr ⟨p, Or.inr hp, hgp, hq⟩
      · rintro (h | ⟨p, (rfl | hp), hgp, hq⟩)
        · exact Or.inl h
        · exact absurd hgp (by simpa using hg)
        · exact Or.inr ⟨p, hp, hgp, hq⟩

lemma mem_sepVars {G : Geom} {a b m : Finset ℕ} :
    m ∈ sepVars G a b ↔ m ∈ G.varMask ∧ a ∩ b ∩ m = ∅ := by
  simp [sepVars, List.mem_filter]

lemma cdist0_eq_false_iff {G : Geom} {a b : Finset ℕ} :
    cdist0 G a b = false ↔ ∃ m ∈ G.varMask, a ∩ b ∩ m = ∅ := by
  rw [cdist0, Bool.eq_false_iff, ne_eq, List.isEmpty_iff]
  constructor
  · intro h
    rcases List.exists_mem_of_ne_nil _ h with ⟨m, hm⟩
    rcases mem_sepVars.1 hm with ⟨h1, h2⟩
    exact ⟨m, h1, h2⟩
  · rintro ⟨m, hm, he⟩ hnil
    have hms : m ∈ sepVars G a b := mem_sepVars.2 ⟨hm, he⟩
    rw [hnil] at hms
    simp at hms

lemma cdist01_eq_zero_iff {G : Geom} {a b : Finset ℕ} :
    cdist01 G a b = 0 ↔ ∀ m ∈ G.varMask, (a ∩ b ∩ m).Nonempty := by
  simp only [cdist01, Nat.min_eq_zero_iff, List.length_eq_zero]
  constructor
  · rintro (h | h)
    · intro m hm
      by_contra hne
      rw [Finset.not_nonempty_iff_eq_empty] at hne
      have hms : m ∈ sepVars G a b := mem_sepVars.2 ⟨hm, hne⟩
      simp [h] at hms
    · omega
  · intro h
    left
    rw [List.eq_nil_iff_forall_not_mem]
    intro m hm
    rcases mem_sepVars.1 hm with ⟨hmm, he⟩
    exact Finset.not_nonempty_iff_eq_empty.2 he (h m hmm)

lemma cdist01_ne_zero_iff {G : Geom} {a b : Finset ℕ} :
    cdist01 G a b ≠ 0 ↔ ∃ m ∈ G.varMask, a ∩ b ∩ m = ∅ := by
  constructor
  · intro h
    by_contra hc
    push_neg at hc
    exact h (cdist01_eq_zero_iff.2 (fun m hm =>
      Finset.nonempty_iff_ne_empty.2 (hc m hm)))
  · rintro ⟨m, hm, he⟩ h0
    rcases cdist01_eq_zero_iff.1 h0 m hm with ⟨q, hq⟩
    simp [he] at hq

lemma cdist01_eq_one_iff {G : Geom} {a b : Finset ℕ} :
    cdist01 G a b = 1 ↔ (sepVars G a b).length = 1 := by
  simp only [cdist01]
  omega

/-! ### Facts about most_frequent -/

/-- The scanning fold of `most_frequent`, over an arbitrary count
function. -/
def mfStep (FS : Finset ℕ) (c : ℕ → ℕ) (st : ℤ × ℤ) (i : ℕ) : ℤ × ℤ :=
  if i ∈ FS ∧ (c i : ℤ) > st.2 then ((i : ℤ), (c i : ℤ)) else st

lemma most_frequent_eq_fold (G : Geom) (CC : Option Cover) (FS : Finset ℕ) :
    most_frequent G CC FS =
      ((List.range G.size).foldl
        (mfStep FS (fun i =>
          match CC with
          | none => 0
          | some cc => (cc.cubes.filter (fun p => p.active && decide (i ∈ p.bits))).length))
        (-1, -1)).1 := by
  rfl

lemma mfStep_fold_empty (c : ℕ → ℕ) :
    ∀ (l : List ℕ) (st : ℤ × ℤ), l.foldl (mfStep ∅ c) st = st := by
  intro l
  induction l with
  | nil => intro st; rfl
  | cons a l ih =>
    intro st
    rw [List.foldl_cons, mfStep, if_neg (by simp)]
    exact ih st

lemma most_frequent_empty (G : Geom) (CC : Option Cover) :
    most_frequent G CC ∅ = -1 := by
  rw [most_frequent_eq_fold, mfStep_fold_empty]

lemma mfStep_fold_zero (FS : Finset ℕ) :
    ∀ n : ℕ,
      ((List.range n).foldl (mfStep FS (fun _ => 0)) (-1, -1)) =
      if h : (FS ∩ Finset.range n).Nonempty then (((FS ∩ Finset.range n).min' h : ℤ), 0)
      else (-1, -1) := by
  intro n
  induction n with
  | zero => simp
  | succ n ih =>
    rw [List.range_succ, List.foldl_append, ih]
    by_cases h : (FS ∩ Finset.range n).Nonempty
    · rw [dif_pos h]
      have hsub : FS ∩ Finset.range n ⊆ FS ∩ Finset.range (n + 1) :=
        Finset.inter_subset_inter (le_refl FS) (Finset.range_subset.2 (Nat.le_succ n))
      have h' : (FS ∩ Finset.range (n + 1)).Nonempty := h.mono hsub
      rw [List.foldl_cons, List.foldl_nil, mfStep, if_neg (by simp), dif_pos h']
      have hmin : (FS ∩ Finset.range (n + 1)).min' h' = (FS ∩ Finset.range n).min' h := by
        apply le_antisymm
        · exact Finset.min'_le _ _ (hsub (Finset.min'_mem _ h))
        · apply Finset.le_min'
          intro y hy
          rcases Finset.mem_inter.1 hy with ⟨hy1, hy2⟩
          rcases Nat.lt_succ_iff_lt_or_eq.1 (Finset.mem_range.1 hy2) with hlt | rfl
          · exact Finset.min'_le _ _ (Finset.mem_inter.2 ⟨hy1, Finset.mem_range.2 hlt⟩)
          · have hlt : (FS ∩ Finset.range y).min' h < y := by
              have hmem := Finset.min'_mem (FS ∩ Finset.range y) h
              exact Finset.mem_range.1 (Finset.mem_inter.1 hmem).2
            exact le_of_lt hlt
      rw [hmin]
    · rw [dif_neg h, List.foldl_cons, List.foldl_nil]
      by_cases hn : n ∈ FS
      · rw [mfStep, if_pos (by constructor <;> simp [hn])]
        have h' : (FS ∩ Finset.range (n + 1)).Nonempty :=
          ⟨n, Finset.mem_inter.2 ⟨hn, Finset.mem_range.2 (Nat.lt_succ_self n)⟩⟩
        rw [dif_pos h']
        have hsing : FS ∩ Finset.range (n + 1) = {n} := by
          apply Finset.eq_singleton_iff_unique_mem.2
          refine ⟨Finset.mem_inter.2 ⟨hn, Finset.mem_range.2 (Nat.lt_succ_self n)⟩, ?_⟩
          intro y hy
          rcases Finset.mem_inter.1 hy with ⟨hy1, hy2⟩
          rcases Nat.lt_succ_iff_lt_or_eq.1 (Finset.mem_range.1 hy2) with hlt | rfl
          · exact absurd ⟨y, Finset.mem_inter.2 ⟨hy1, Finset.mem_range.2 hlt⟩⟩ h
          · rfl
        simp [hsing]
      · rw [mfStep, if_neg (by simp [hn])]
        have h' : ¬(FS ∩ Finset.range (n + 1)).Nonempty := by
          rintro ⟨y, hy⟩
          rcases Finset.mem_inter.1 hy with ⟨hy1, hy2⟩
          rcases Nat.lt_succ_iff_lt_or_eq.1 (Finset.mem_range.1 hy2) with hlt | rfl
          · exact h ⟨y, Finset.mem_inter.2 ⟨hy1, Finset.mem_range.2 hlt⟩⟩
          · exact hn hy1
        rw [dif_neg h']

lemma most_frequent_none (G : Geom) (FS : Finset ℕ) (h : FS.Nonempty)
    (hsub : FS ⊆ Finset.range G.size) :
    most_frequent G none FS = (FS.min' h : ℤ) := by
  have heq : FS ∩ Finset.range G.size = FS := Finset.inter_eq_left.2 hsub
  rw [most_frequent_eq_fold, mfStep_fold_zero FS G.size,
    dif_pos (by rw [heq]; exact h)]
  have hmin : (FS ∩ Finset.range G.size).min' (by rw [heq]; exact h) = FS.min' h := by
    congr 1
  rw [hmin]

lemma foldl_preserve {β : Type _} (P : β → Prop) (f : β → ℕ → β) :
    ∀ (l : List ℕ) (st : β), P st → (∀ st i, i ∈ l → P st → P (f st i)) →
      P (l.foldl f st) := by
  intro l
  induction l with
  | nil => intro st h0 _; exact h0
  | cons a l ih =>
    intro st h0 hstep
    rw [List.foldl_cons]
    exact ih _ (hstep st a (List.mem_cons_self a l) h0)
      (fun st i hi => hstep st i (List.mem_cons_of_mem a hi))

/-- Membership facts for a non-(-1) result of `most_frequent`: the returned
part is free and lies below `cube.size`. -/
lemma most_frequent_mem (G : Geom) (CC : Option Cover) (FS : Finset ℕ) :
    most_frequent G CC FS = -1 ∨
      (0 ≤ most_frequent G CC FS ∧ (most_frequent G CC FS).toNat ∈ FS ∧
        (most_frequent G CC FS).toNat < G.size) := by
  rw [most_frequent_eq_fold]
  have h := foldl_preserve
    (fun st : ℤ × ℤ => st.1 = -1 ∨ (0 ≤ st.1 ∧ st.1.toNat ∈ FS ∧ st.1.toNat < G.size))
    (mfStep FS (fun i =>
      match CC with
      | none => 0
      | some cc => (cc.cubes.filter (fun p => p.active && decide (i ∈ p.bits))).length))
    (List.range G.size) (-1, -1) (Or.inl rfl) ?step
  · rcases h with h | h
    · exact Or.inl h
    · exact Or.inr h
  case step =>
    intro st i hi hP
    rw [mfStep]
    by_cases hc : i ∈ FS ∧
        ((match CC with
          | none => 0
          | some cc =>
            (cc.cubes.filter (fun p => p.active && decide (i ∈ p.bits))).length : ℕ) : ℤ) > st.2
    · rw [if_pos hc]
      refine Or.inr ⟨Int.natCast_nonneg i, ?_, ?_⟩
      · rw [Int.toNat_natCast]; exact hc.1
      · rw [Int.toNat_natCast]; exact List.mem_range.1 hi
    · rw [if_neg hc]; exact hP

/-- The bracketed bound returned by `most_frequent`, in the form needed by
`zinsert_zremove_bounds`. -/
lemma most_frequent_bound (G : Geom) (CC : Option Cover) (FS : Finset ℕ) :
    most_frequent G CC FS = -1 ∨
      (0 ≤ most_frequent G CC FS ∧ (most_frequent G CC FS).toNat ∈ FS) := by
  rcases most_frequent_mem G CC FS with h | ⟨h1, h2, _⟩
  · exact Or.inl h
  · exact Or.inr ⟨h1, h2⟩

/-- Monotonicity through the `most_frequent` raising loop of `expand1`:
`RAISE` only grows, `RAISE ∪ FREESET` only shrinks, and the number of
ON-cubes is unchanged. -/
lemma mf_loop_inv (G : Geom) :
    ∀ (fuel : ℕ) (BB CC : Cover) (R F : Finset ℕ) (BB2 CC2 : Cover)
      (R2 F2 : Finset ℕ),
      mf_loop G fuel BB CC R F = .ok (BB2, CC2, R2, F2) →
      R ⊆ R2 ∧ R2 ∪ F2 ⊆ R ∪ F ∧ CC2.cubes.length = CC.cubes.length ∧
      Deact CC CC2 := by
  intro fuel
  induction fuel with
  | zero =>
    intro BB CC R F BB2 CC2 R2 F2 h
    rw [mf_loop] at h
    split at h
    · have h3 := Except.ok.inj h
      rw [Prod.mk.injEq, Prod.mk.injEq, Prod.mk.injEq] at h3
      obtain ⟨_, hC, hR, hF⟩ := h3
      subst hC
      subst hR
      subst hF
      exact ⟨subset_rfl, subset_rfl, rfl, shrunkBy_self false CC⟩
    · exact absurd h (fun hc => Except.noConfusion hc)
  | succ fuel ih =>
    intro BB CC R F BB2 CC2 R2 F2 h
    rw [mf_loop] at h
    split at h
    · have h3 := Except.ok.inj h
      rw [Prod.mk.injEq, Prod.mk.injEq, Prod.mk.injEq] at h3
      obtain ⟨_, hC, hR, hF⟩ := h3
      subst hC
      subst hR
      subst hF
      exact ⟨subset_rfl, subset_rfl, rfl, shrunkBy_self false CC⟩
    · dsimp only at h
      split at h
      · exact absurd h (fun hc => Except.noConfusion hc)
      · rename_i BB3 CC3 F3 hep
        obtain ⟨hz1, hz2, hz3⟩ := zinsert_zremove_bounds R (most_frequent_bound G (some CC) F)
        obtain ⟨hF3, _, _, _, hccs⟩ := essen_parts_post hep
        obtain ⟨cc3, hcc3, hlen3, _⟩ := hccs _ rfl
        obtain ⟨cc3b, hcc3b, hdeact⟩ := essen_parts_cc_deact hep
        rw [hcc3] at hcc3b
        rcases Option.some.inj hcc3b with rfl
        rw [hcc3] at h
        obtain ⟨i1, i2, i3, i4⟩ := ih _ _ _ _ _ _ _ _ h
        dsimp only [Option.getD] at i3 i4
        refine ⟨hz1.trans i1, ?_, i3.trans hlen3, ShrunkBy.trans hdeact i4⟩
        refine i2.trans ((Finset.union_subset_union subset_rfl hF3).trans ?_)
        exact Finset.union_subset hz2
          ((hz3.trans Finset.subset_union_right))

/-- `mincov` only grows `RAISE` and only shrinks `RAISE ∪ FREESET`. -/
lemma mincov_post {G : Geom} {BB : Cover} {R F : Finset ℕ} {BB2 : Cover}
    {R2 F2 : Finset ℕ} {sv : Bool} (h : mincov G BB R F = .ok (BB2, R2, F2, sv)) :
    R ⊆ R2 ∧ R2 ∪ F2 ⊆ R ∪ F := by
  unfold mincov at h
  dsimp only at h
  split at h
  · split at h
    · exact absurd h (fun hc => Except.noConfusion hc)
    · rename_i BB3 CC3 F3 hep
      obtain ⟨hz1, hz2, hz3⟩ := zinsert_zremove_bounds R (most_frequent_bound G none F)
      obtain ⟨hF3, _, _, _, _⟩ := essen_parts_post hep
      have h3 := Except.ok.inj h
      rw [Prod.mk.injEq, Prod.mk.injEq, Prod.mk.injEq] at h3
      obtain ⟨_, hR, hF, _⟩ := h3
      subst hR
      subst hF
      refine ⟨hz1, Finset.union_subset hz2 ?_⟩
      exact (hF3.trans Finset.sdiff_subset).trans Finset.subset_union_right
  · have h3 := Except.ok.inj h
    rw [Prod.mk.injEq, Prod.mk.injEq, Prod.mk.injEq] at h3
    obtain ⟨_, hR, hF, _⟩ := h3
    subst hR
    subst hF
    refine ⟨Finset.subset_union_left, ?_⟩
    rw [Finset.union_empty]
    exact Finset.union_subset Finset.subset_union_left
      (Finset.sdiff_subset.trans Finset.subset_union_right)

/-- Monotonicity through the `mincov` loop of `expand1`. -/
lemma bb_loop_inv (G : Geom) :
    ∀ (fuel : ℕ) (BB : Cover) (R F : Finset ℕ) (sv : Bool) (BB2 : Cover)
      (R2 F2 : Finset ℕ) (sv2 : Bool),
      bb_loop G fuel BB R F sv = .ok (BB2, R2, F2, sv2) →
      R ⊆ R2 ∧ R2 ∪ F2 ⊆ R ∪ F := by
  intro fuel
  induction fuel with
  | zero =>
    intro BB R F sv BB2 R2 F2 sv2 h
    rw [bb_loop] at h
    split at h
    · have h3 := Except.ok.inj h
      rw [Prod.mk.injEq, Prod.mk.injEq, Prod.mk.injEq] at h3
      obtain ⟨_, hR, hF, _⟩ := h3
      subst hR
      subst hF
      exact ⟨subset_rfl, subset_rfl⟩
    · exact absurd h (fun hc => Except.noConfusion hc)
  | succ fuel ih =>
    intro BB R F sv BB2 R2 F2 sv2 h
    rw [bb_loop] at h
    split at h
    · have h3 := Except.ok.inj h
      rw [Prod.mk.injEq, Prod.mk.injEq, Prod.mk.injEq] at h3
      obtain ⟨_, hR, hF, _⟩ := h3
      subst hR
      subst hF
      exact ⟨subset_rfl, subset_rfl⟩
    · split at h
      · exact absurd h (fun hc => Except.noConfusion hc)
      · rename_i BB3 R3 F3 sv3 hmc
        obtain ⟨m1, m2⟩ := mincov_post hmc
        obtain ⟨i1, i2⟩ := ih _ _ _ _ _ _ _ _ h
        exact ⟨m1.trans i1, i2.trans m2⟩

lemma subset_union_sdiff_self (s t : Finset ℕ) : s ⊆ t ∪ (s \ t) := by
  intro x hx
  by_cases hxt : x ∈ t
  · exact Finset.mem_union_left _ hxt
  · exact Finset.mem_union_right _ (Finset.mem_sdiff.2 ⟨hx, hxt⟩)

/-- Every cube of the activation-pass ON-cover built by `expand1` keeps the
bits of a cube of the original cover. -/
lemma expand1_CC0_in (G : Geom) (CC : Cover) (ci : ℕ)
    (hCC : CubesIn CC G.fullset) :
    ∀ q ∈ (List.map
        (fun p => if (p.covered || p.prime) = true
          then { p with active := false } else { p with active := true })
        (modifyCube CC.cubes ci (fun q => { q with prime := true }))),
      q.bits ⊆ G.fullset := by
  intro q hq
  rcases List.mem_map.1 hq with ⟨p, hp, rfl⟩
  have hpb : p.bits ⊆ G.fullset := by
    rcases modifyCube_mem hp with hp2 | ⟨p2, hp2, rfl⟩
    · exact hCC p hp2
    · exact hCC p2 (List.mem_iff_getElem?.2 ⟨ci, hp2⟩)
  split
  · exact hpb
  · exact hpb

/-- The write-back step of `expand1`: given the loop equations and the
recorded bounds, the cube written at index `ci` lies between `RAISE` and
the over-expanded cube. -/
lemma expand1_write_back {G : Geom} {st1 : EState} {c0 F1 : Finset ℕ}
    {ci : ℕ} {o : E1Out} {BB2 CC2 : Cover} {R2 F2 : Finset ℕ} {BB3 : Cover}
    {R3 F3 : Finset ℕ} {sv : Bool}
    (hA : c0 ⊆ st1.RAISE) (hB : st1.RAISE ∪ st1.FREESET ⊆ c0 ∪ F1)
    (hL : ci < st1.CC.cubes.length)
    (hmf : mf_loop G (G.size + 2) st1.BB st1.CC st1.RAISE st1.FREESET =
      .ok (BB2, CC2, R2, F2))
    (hbb : bb_loop G (G.size + 2) BB2 R2 F2 false = .ok (BB3, R3, F3, sv))
    (ho : o.CC.cubes = modifyCube CC2.cubes ci (fun q =>
      { q with bits := R3 ∪ F3, prime := true, covered := false,
               nonessen := q.nonessen ||
                 (st1.numCov = 0 && decide (R3 ∪ F3 ≠ c0 ∪ F1)) }))
    (hOX : o.OX = c0 ∪ F1) :
    ∃ q, o.CC.cubes[ci]? = some q ∧ c0 ⊆ q.bits ∧ q.bits ⊆ o.OX := by
  obtain ⟨m1, m2, m3, m4⟩ := mf_loop_inv G _ _ _ _ _ _ _ _ _ hmf
  obtain ⟨b1, b2⟩ := bb_loop_inv G _ _ _ _ _ _ _ _ _ hbb
  have hlen2 : ci < CC2.cubes.length := by
    rw [m3]
    exact hL
  obtain ⟨p2, hp2⟩ : ∃ p2, CC2.cubes[ci]? = some p2 :=
    ⟨CC2.cubes[ci], List.getElem?_eq_getElem hlen2⟩
  rw [ho, hOX]
  refine ⟨{ p2 with
              bits := R3 ∪ F3,
              prime := true,
              covered := false,
              nonessen := p2.nonessen ||
                (decide (st1.numCov = 0) && decide (R3 ∪ F3 ≠ c0 ∪ F1)) },
          ?_, ?_, ?_⟩
  · rw [modifyCube_get, if_pos rfl, hp2]
    rfl
  · exact ((hA.trans m1).trans b1).trans Finset.subset_union_left
  · exact (b2.trans m2).trans hB

/-- The part of `expand1` after the first `essen_parts` call: the written-
back cube lies between the starting cube and the over-expanded cube. -/
lemma expand1_core_tail {G : Geom} {BBx CCx : Cover} {c0 F0 : Finset ℕ}
    {ci : ℕ} {o : E1Out}
    (hCCx : CCin CCx (c0 ∪ F0)) (hlen : ci < CCx.cubes.length)
    (h : (do
      let (BB1, CC1o, F1) ← essen_parts G BBx (some CCx) c0 F0
      let CC1 := CC1o.getD CCx
      let OX := c0 ∪ F1
      let st0 : EState :=
        { BB := BB1, CC := CC1, RAISE := c0, FREESET := F1, SUPER := c0, numCov := 0 }
      let st1 ← if 0 < CC1.active_count then select_feasible G st0 else .ok st0
      let (BB2, CC2, R2, F2) ← mf_loop G (G.size + 2) st1.BB st1.CC st1.RAISE st1.FREESET
      let (BB3, R3, F3, sv) ← bb_loop G (G.size + 2) BB2 R2 F2 false
      let R4 := R3 ∪ F3
      let CCF : Cover :=
        { CC2 with cubes := modifyCube CC2.cubes ci (fun q =>
            { q with bits := R4, prime := true, covered := false,
                     nonessen := q.nonessen || (st1.numCov = 0 && decide (R4 ≠ OX)) }) }
      return ({ BB := BB3, CC := CCF, OX := OX, usedSolver := sv } : E1Out)) = .ok o) :
    ∃ q, o.CC.cubes[ci]? = some q ∧ c0 ⊆ q.bits ∧ q.bits ⊆ o.OX := by
  simp only [bind, Except.bind] at h
  split at h
  · exact absurd h (fun hc => Except.noConfusion hc)
  · rename_i x3 hep
    obtain ⟨BB1, CC1o, F1⟩ := x3
    dsimp only at h
    obtain ⟨hF1, _, _, _, hccs⟩ := essen_parts_post hep
    obtain ⟨cc1, hcc1, hlen1, hin1⟩ := hccs _ rfl
    rw [hcc1] at h
    dsimp only [Option.getD] at h
    have hCC1 : CCin cc1 (c0 ∪ F1) := hin1 hCCx
    split at h
    · -- select_feasible runs
      rename_i hac
      split at h
      · exact absurd h (fun hc => Except.noConfusion hc)
      · rename_i st1 hsel
        rw [select_feasible] at hsel
        obtain ⟨s1, s2, s3, s4, s5⟩ := sf_loop_inv G _ _ _ _ hsel hCC1
        dsimp only at s1 s2 s4
        split at h
        · exact absurd h (fun hc => Except.noConfusion hc)
        · rename_i x4 hmf
          obtain ⟨BB2, CC2, R2, F2⟩ := x4
          dsimp only at h
          split at h
          · exact absurd h (fun hc => Except.noConfusion hc)
          · rename_i x5 hbb
            obtain ⟨BB3, R3, F3, sv⟩ := x5
            dsimp only at h
            have ho := (Except.ok.inj h).symm
            subst ho
            refine expand1_write_back s1 s2 ?_ hmf hbb rfl rfl
            rw [s4, hlen1]
            exact hlen
    · -- CC has no active cube left: the state passes through unchanged
      rename_i hac
      split at h
      · exact absurd h (fun hc => Except.noConfusion hc)
      · rename_i x4 hmf
        obtain ⟨BB2, CC2, R2, F2⟩ := x4
        dsimp only at h
        split at h
        · exact absurd h (fun hc => Except.noConfusion hc)
        · rename_i x5 hbb
          obtain ⟨BB3, R3, F3, sv⟩ := x5
          dsimp only at h
          have ho := (Except.ok.inj h).symm
          subst ho
          refine @expand1_write_back G ⟨BB1, cc1, c0, F1, c0, 0⟩ c0 F1 ci _
            BB2 CC2 R2 F2 BB3 R3 F3 sv subset_rfl subset_rfl ?_ hmf hbb rfl rfl
          show ci < cc1.cubes.length
          rw [hlen1]
          exact hlen

/-- Extended write-back step: besides the bounds on the written cube, all
other cubes keep their bits and are at most deactivated or absorbed inside
the written cube. -/
lemma expand1_write_back_ref {G : Geom} {st1 : EState} {c0 F1 : Finset ℕ}
    {ci : ℕ} {o : E1Out} {BB2 CC2 : Cover} {R2 F2 : Finset ℕ} {BB3 : Cover}
    {R3 F3 : Finset ℕ} {sv : Bool} {CCx : Cover} {F0 : Finset ℕ}
    (hA : c0 ⊆ st1.RAISE) (hB : st1.RAISE ∪ st1.FREESET ⊆ c0 ∪ F1)
    (hF1 : F1 ⊆ F0)
    (hW : ShrunkWithin st1.RAISE CCx st1.CC)
    (hLx : ci < CCx.cubes.length)
    (hmf : mf_loop G (G.size + 2) st1.BB st1.CC st1.RAISE st1.FREESET =
      .ok (BB2, CC2, R2, F2))
    (hbb : bb_loop G (G.size + 2) BB2 R2 F2 false = .ok (BB3, R3, F3, sv))
    (hoCC : o.CC.cubes = modifyCube CC2.cubes ci (fun q =>
      { q with bits := R3 ∪ F3, prime := true, covered := false,
               nonessen := q.nonessen ||
                 (st1.numCov = 0 && decide (R3 ∪ F3 ≠ c0 ∪ F1)) }))
    (hOX : o.OX = c0 ∪ F1) :
    ∃ q, o.CC.cubes[ci]? = some q ∧ q.covered = false ∧ c0 ⊆ q.bits ∧
      q.bits ⊆ o.OX ∧ o.OX ⊆ c0 ∪ F0 ∧
      o.CC.cubes.length = CCx.cubes.length ∧
      ∀ k : ℕ, k ≠ ci →
        (o.CC.cubes[k]? = CCx.cubes[k]? ∨
         ∃ p : Cube, CCx.cubes[k]? = some p ∧
           (o.CC.cubes[k]? = some { p with active := false } ∨
             (o.CC.cubes[k]? = some { p with active := false, covered := true } ∧
               p.bits ⊆ q.bits))) := by
  obtain ⟨m1, m2, m3, m4⟩ := mf_loop_inv G _ _ _ _ _ _ _ _ _ hmf
  obtain ⟨b1, b2⟩ := bb_loop_inv G _ _ _ _ _ _ _ _ _ hbb
  have hlen2 : ci < CC2.cubes.length := by
    rw [m3, ← hW.len_eq]
    exact hLx
  obtain ⟨p2, hp2⟩ : ∃ p2, CC2.cubes[ci]? = some p2 :=
    ⟨CC2.cubes[ci], List.getElem?_eq_getElem hlen2⟩
  have hWall : ShrunkWithin (R3 ∪ F3) CCx CC2 :=
    (hW.monoR ((m1.trans b1).trans Finset.subset_union_left)).transW
      (ShrunkWithin.of_deact m4)
  refine ⟨{ p2 with
              bits := R3 ∪ F3,
              prime := true,
              covered := false,
              nonessen := p2.nonessen ||
                (decide (st1.numCov = 0) && decide (R3 ∪ F3 ≠ c0 ∪ F1)) },
          ?_, rfl, ?_, ?_, ?_, ?_, ?_⟩
  · rw [hoCC, modifyCube_get, if_pos rfl, hp2]
    rfl
  · exact ((hA.trans m1).trans b1).trans Finset.subset_union_left
  · rw [hOX]
    exact (b2.trans m2).trans hB
  · rw [hOX]
    exact Finset.union_subset_union subset_rfl hF1
  · rw [hoCC, modifyCube_length, m3, ← hW.len_eq]
  · intro k hk
    rw [hoCC, modifyCube_get, if_neg hk]
    rcases hWall.2 k with h1 | ⟨p, hp, h2 | ⟨h2, hb⟩⟩
    · exact Or.inl h1
    · exact Or.inr ⟨p, hp, Or.inl h2⟩
    · exact Or.inr ⟨p, hp, Or.inr ⟨h2, hb⟩⟩

/-- Extended tail lemma: the written-back cube lies between the starting
cube and the over-expanded cube, which stays inside `c0 ∪ F0`, and every
other cube keeps its bits, being at most deactivated or absorbed inside
the written cube. -/
lemma expand1_core_tail_ref {G : Geom} {BBx CCx : Cover} {c0 F0 : Finset ℕ}
    {ci : ℕ} {o : E1Out}
    (hCCx : CCin CCx (c0 ∪ F0)) (hlen : ci < CCx.cubes.length)
    (h : (do
      let (BB1, CC1o, F1) ← essen_parts G BBx (some CCx) c0 F0
      let CC1 := CC1o.getD CCx
      let OX := c0 ∪ F1
      let st0 : EState :=
        { BB := BB1, CC := CC1, RAISE := c0, FREESET := F1, SUPER := c0, numCov := 0 }
      let st1 ← if 0 < CC1.active_count then select_feasible G st0 else .ok st0
      let (BB2, CC2, R2, F2) ← mf_loop G (G.size + 2) st1.BB st1.CC st1.RAISE st1.FREESET
      let (BB3, R3, F3, sv) ← bb_loop G (G.size + 2) BB2 R2 F2 false
      let R4 := R3 ∪ F3
      let CCF : Cover :=
        { CC2 with cubes := modifyCube CC2.cubes ci (fun q =>
            { q with bits := R4, prime := true, covered := false,
                     nonessen := q.nonessen || (st1.numCov = 0 && decide (R4 ≠ OX)) }) }
      return ({ BB := BB3, CC := CCF, OX := OX, usedSolver := sv } : E1Out)) = .ok o) :
    ∃ q, o.CC.cubes[ci]? = some q ∧ q.covered = false ∧ c0 ⊆ q.bits ∧
      q.bits ⊆ o.OX ∧ o.OX ⊆ c0 ∪ F0 ∧
      o.CC.cubes.length = CCx.cubes.length ∧
      ∀ k : ℕ, k ≠ ci →
        (o.CC.cubes[k]? = CCx.cubes[k]? ∨
         ∃ p : Cube, CCx.cubes[k]? = some p ∧
           (o.CC.cubes[k]? = some { p with active := false } ∨
             (o.CC.cubes[k]? = some { p with active := false, covered := true } ∧
               p.bits ⊆ q.bits))) := by
  simp only [bind, Except.bind] at h
  split at h
  · exact absurd h (fun hc => Except.noConfusion hc)
  · rename_i x3 hep
    obtain ⟨BB1, CC1o, F1⟩ := x3
    dsimp only at h
    obtain ⟨hF1, _, _, _, hccs⟩ := essen_parts_post hep
    obtain ⟨cc1, hcc1, hlen1, hin1⟩ := hccs _ rfl
    obtain ⟨cc1b, hcc1b, hdeact1⟩ := essen_parts_cc_deact hep
    rw [hcc1] at hcc1b
    rcases Option.some.inj hcc1b with rfl
    rw [hcc1] at h
    dsimp only [Option.getD] at h
    have hCC1 : CCin cc1 (c0 ∪ F1) := hin1 hCCx
    have hLx1 : ci < cc1.cubes.length := by
      rw [hlen1]
      exact hlen
    split at h
    · -- select_feasible runs
      rename_i hac
      split at h
      · exact absurd h (fun hc => Except.noConfusion hc)
      · rename_i st1 hsel
        rw [select_feasible] at hsel
        obtain ⟨s1, s2, s3, s4, s5⟩ := sf_loop_inv G _ _ _ _ hsel hCC1
        dsimp only at s1 s2 s4 s5
        split at h
        · exact absurd h (fun hc => Except.noConfusion hc)
        · rename_i x4 hmf
          obtain ⟨BB2, CC2, R2, F2⟩ := x4
          dsimp only at h
          split at h
          · exact absurd h (fun hc => Except.noConfusion hc)
          · rename_i x5 hbb
            obtain ⟨BB3, R3, F3, sv⟩ := x5
            dsimp only at h
            have ho := (Except.ok.inj h).symm
            subst ho
            refine expand1_write_back_ref s1 s2 hF1
              (((ShrunkWithin.of_deact hdeact1).transW s5)) ?_ hmf hbb rfl rfl
            exact hlen
    · -- CC has no active cube left: the state passes through unchanged
      rename_i hac
      split at h
      · exact absurd h (fun hc => Except.noConfusion hc)
      · rename_i x4 hmf
        obtain ⟨BB2, CC2, R2, F2⟩ := x4
        dsimp only at h
        split at h
        · exact absurd h (fun hc => Except.noConfusion hc)
        · rename_i x5 hbb
          obtain ⟨BB3, R3, F3, sv⟩ := x5
          dsimp only at h
          have ho := (Except.ok.inj h).symm
          subst ho
          refine @expand1_write_back_ref G ⟨BB1, cc1, c0, F1, c0, 0⟩ c0 F1 ci _
            BB2 CC2 R2 F2 BB3 R3 F3 sv CCx F0 subset_rfl subset_rfl hF1
            (ShrunkWithin.of_deact hdeact1) hlen hmf hbb rfl rfl

/-- `getElem?`-level preservation of bits and `COVERED` through a map by a
flag-only function. -/
lemma map_obs2_get (l : List Cube) (f : Cube → Cube)
    (hf : ∀ q, (f q).bits = q.bits ∧ (f q).covered = q.covered) (k : ℕ) :
    ((l.map f)[k]?).map (fun c => (c.bits, c.covered)) =
      (l[k]?).map (fun c => (c.bits, c.covered)) := by
  rw [List.getElem?_map]
  cases l[k]? with
  | none => rfl
  | some p =>
    simp only [Option.map_some']
    rw [(hf p).1, (hf p).2]

/-- `getElem?`-level preservation of bits and `COVERED` through
`modifyCube` by a flag-only function. -/
lemma modifyCube_obs2_get (l : List Cube) (i : ℕ) (f : Cube → Cube)
    (hf : ∀ q, (f q).bits = q.bits ∧ (f q).covered = q.covered) (k : ℕ) :
    ((modifyCube l i f)[k]?).map (fun c => (c.bits, c.covered)) =
      (l[k]?).map (fun c => (c.bits, c.covered)) := by
  rw [modifyCube_get]
  by_cases hk : k = i
  · subst hk
    rw [if_pos rfl]
    cases l[k]? with
    | none => rfl
    | some p =>
      simp only [Option.map_some']
      rw [(hf p).1, (hf p).2]
  · rw [if_neg hk]

/-- Assembly of `expand1`'s coverage refinement from the tail facts and
the bit/`COVERED`-preservation of the activation pass. -/
lemma expand1_refines_aux {G : Geom} {CC CCx : Cover} {c0 F0 : Finset ℕ}
    {ci : ℕ} {o : E1Out}
    (hc0 : c0 = (CC.cubes.getD ci dfltCube).bits)
    (hF0 : c0 ∪ F0 ⊆ G.fullset)
    (hCCf : CubesIn CC G.fullset)
    (hP1 : ∀ k : ℕ, ((CCx.cubes[k]?).map (fun c => (c.bits, c.covered))) =
      ((CC.cubes[k]?).map (fun c => (c.bits, c.covered))))
    (hP2 : CCx.cubes.length = CC.cubes.length)
    (htail : ∃ q, o.CC.cubes[ci]? = some q ∧ q.covered = false ∧ c0 ⊆ q.bits ∧
      q.bits ⊆ o.OX ∧ o.OX ⊆ c0 ∪ F0 ∧
      o.CC.cubes.length = CCx.cubes.length ∧
      ∀ k : ℕ, k ≠ ci →
        (o.CC.cubes[k]? = CCx.cubes[k]? ∨
         ∃ p : Cube, CCx.cubes[k]? = some p ∧
           (o.CC.cubes[k]? = some { p with active := false } ∨
             (o.CC.cubes[k]? = some { p with active := false, covered := true } ∧
               p.bits ⊆ q.bits)))) :
    (∀ p ∈ CC.cubes, p.covered = false →
      ∃ p' ∈ o.CC.cubes, p.bits ⊆ p'.bits ∧ p'.covered = false) ∧
    o.CC.cubes.length = CC.cubes.length ∧ CubesIn o.CC G.fullset := by
  obtain ⟨q, hq, hqcov, hqc0, hqOX, hOXF, hlen, hrest⟩ := htail
  have hqfull : q.bits ⊆ G.fullset := hqOX.trans (hOXF.trans hF0)
  have hobs : ∀ (k : ℕ) (p : Cube), CC.cubes[k]? = some p →
      ∃ px, CCx.cubes[k]? = some px ∧ px.bits = p.bits ∧ px.covered = p.covered := by
    intro k p hp
    have h1 := hP1 k
    rw [hp] at h1
    cases hx : CCx.cubes[k]? with
    | none =>
      rw [hx] at h1
      exact absurd h1 (by simp)
    | some px =>
      rw [hx] at h1
      simp only [Option.map_some'] at h1
      have h2 := Option.some.inj h1
      rw [Prod.mk.injEq] at h2
      exact ⟨px, rfl, h2.1, h2.2⟩
  have hobs2 : ∀ (k : ℕ) (px : Cube), CCx.cubes[k]? = some px →
      ∃ p, CC.cubes[k]? = some p ∧ px.bits = p.bits ∧ px.covered = p.covered := by
    intro k px hx
    have h1 := hP1 k
    rw [hx] at h1
    cases hp : CC.cubes[k]? with
    | none =>
      rw [hp] at h1
      exact absurd h1 (by simp)
    | some p =>
      rw [hp] at h1
      simp only [Option.map_some'] at h1
      have h2 := Option.some.inj h1
      rw [Prod.mk.injEq] at h2
      exact ⟨p, rfl, h2.1, h2.2⟩
  refine ⟨?_, hlen.trans hP2, ?_⟩
  · intro p hp hpcov
    rcases List.mem_iff_getElem?.1 hp with ⟨k, hk⟩
    by_cases hkci : k = ci
    · subst hkci
      refine ⟨q, List.mem_iff_getElem?.2 ⟨k, hq⟩, ?_, hqcov⟩
      rw [hc0] at hqc0
      have hgd : CC.cubes.getD k dfltCube = p := by
        rw [List.getD_eq_getElem?_getD, hk]
        rfl
      rw [hgd] at hqc0
      exact hqc0
    · obtain ⟨px, hpx, hpxb, hpxc⟩ := hobs k p hk
      rcases hrest k hkci with h1 | ⟨p3, hp3, h2 | ⟨h2, hb⟩⟩
      · refine ⟨px, List.mem_iff_getElem?.2 ⟨k, by rw [h1, hpx]⟩, ?_, ?_⟩
        · rw [hpxb]
        · rw [hpxc]
          exact hpcov
      · rw [hpx] at hp3
        rcases Option.some.inj hp3 with rfl
        refine ⟨{ px with active := false }, List.mem_iff_getElem?.2 ⟨k, h2⟩, ?_, ?_⟩
        · show p.bits ⊆ px.bits
          rw [hpxb]
        · show px.covered = false
          rw [hpxc]
          exact hpcov
      · rw [hpx] at hp3
        rcases Option.some.inj hp3 with rfl
        refine ⟨q, List.mem_iff_getElem?.2 ⟨ci, hq⟩, ?_, hqcov⟩
        rw [← hpxb]
        exact hb
  · intro p' hp'
    rcases List.mem_iff_getElem?.1 hp' with ⟨k, hk⟩
    by_cases hkci : k = ci
    · subst hkci
      rw [hq] at hk
      rcases Option.some.inj hk with rfl
      exact hqfull
    · rcases hrest k hkci with h1 | ⟨p3, hp3, h2 | ⟨h2, hb⟩⟩
      · rw [h1] at hk
        obtain ⟨pc, hpc, hbits, _⟩ := hobs2 k p' hk
        rw [hbits]
        exact hCCf pc (List.mem_iff_getElem?.2 ⟨k, hpc⟩)
      · rw [h2] at hk
        rcases Option.some.inj hk with rfl
        obtain ⟨pc, hpc, hbits, _⟩ := hobs2 k p3 hp3
        show p3.bits ⊆ G.fullset
        rw [hbits]
        exact hCCf pc (List.mem_iff_getElem?.2 ⟨k, hpc⟩)
      · rw [h2] at hk
        rcases Option.some.inj hk with rfl
        obtain ⟨pc, hpc, hbits, _⟩ := hobs2 k p3 hp3
        show p3.bits ⊆ G.fullset
        rw [hbits]
        exact hCCf pc (List.mem_iff_getElem?.2 ⟨k, hpc⟩)

/-- Coverage refinement of one `expand1` call: every non-`COVERED` cube of
the input cover is bit-contained in some non-`COVERED` cube of the output
cover; the number of cubes and containment in the geometry are
preserved. -/
lemma expand1_refines (G : Geom) (BB CC : Cover) (IL : Finset ℕ) (ci : ℕ)
    (o : E1Out) (hCC : CubesIn CC G.fullset) (hci : ci < CC.cubes.length)
    (h : expand1_core G BB CC IL ci = .ok o) :
    (∀ p ∈ CC.cubes, p.covered = false →
      ∃ p' ∈ o.CC.cubes, p.bits ⊆ p'.bits ∧ p'.covered = false) ∧
    o.CC.cubes.length = CC.cubes.length ∧ CubesIn o.CC G.fullset := by
  have hc0f : (CC.cubes.getD ci dfltCube).bits ⊆ G.fullset := by
    refine hCC _ ?_
    rw [List.getD_eq_getElem?_getD, List.getElem?_eq_getElem hci]
    exact List.getElem_mem hci
  rw [expand1_core] at h
  by_cases hIL : IL = ∅
  · rw [if_pos hIL] at h
    dsimp only at h
    refine expand1_refines_aux rfl ?_ hCC ?_ ?_ (expand1_core_tail_ref ?_ ?_ h)
    · exact Finset.union_subset hc0f Finset.sdiff_subset
    · intro k
      rw [map_obs2_get _ _ (fun q => ⟨by split <;> rfl, by split <;> rfl⟩) k,
        modifyCube_obs2_get CC.cubes ci (fun q => { q with prime := true })
          (fun q => ⟨rfl, rfl⟩) k]
    · rw [List.length_map, modifyCube_length]
    · intro q hq _
      exact (expand1_CC0_in G CC ci hCC q hq).trans
        (subset_union_sdiff_self G.fullset _)
    · rw [List.length_map, modifyCube_length]
      exact hci
  · rw [if_neg hIL] at h
    dsimp only at h
    rw [elim_lowering_snd] at h
    dsimp only [Option.map, Option.getD] at h
    refine expand1_refines_aux rfl ?_ hCC ?_ ?_
      (expand1_core_tail_ref (CCin_deactWhere_subset _ _) ?_ h)
    · exact Finset.union_subset hc0f (Finset.sdiff_subset.trans Finset.sdiff_subset)
    · intro k
      dsimp only [deactWhere]
      rw [map_obs2_get _ _ (fun q => ⟨by split <;> rfl, by split <;> rfl⟩) k,
        map_obs2_get _ _ (fun q => ⟨by split <;> rfl, by split <;> rfl⟩) k,
        modifyCube_obs2_get CC.cubes ci (fun q => { q with prime := true })
          (fun q => ⟨rfl, rfl⟩) k]
    · dsimp only [deactWhere]
      rw [List.length_map, List.length_map, modifyCube_length]
    · rw [deactWhere_length]
      dsimp only
      rw [List.length_map, modifyCube_length]
      exact hci

/-- Coverage refinement through the whole per-cube iteration of
`expand`. -/
lemma expand_iter_refines (G : Geom) (IL : Finset ℕ) :
    ∀ (idxs : List ℕ) (BB CC : Cover) (sv : Bool) (BB2 CC2 : Cover) (sv2 : Bool),
      expand_iter G IL idxs BB CC sv = .ok (BB2, CC2, sv2) →
      CubesIn CC G.fullset →
      (∀ i ∈ idxs, i < CC.cubes.length) →
      (∀ p ∈ CC.cubes, p.covered = false →
        ∃ p2 ∈ CC2.cubes, p.bits ⊆ p2.bits ∧ p2.covered = false) ∧
      CC2.cubes.length = CC.cubes.length ∧ CubesIn CC2 G.fullset := by
  intro idxs
  induction idxs with
  | nil =>
    intro BB CC sv BB2 CC2 sv2 h hin _
    rw [expand_iter] at h
    have h3 := Except.ok.inj h
    rw [Prod.mk.injEq, Prod.mk.injEq] at h3
    obtain ⟨_, hC, _⟩ := h3
    subst hC
    exact ⟨fun p hp hc => ⟨p, hp, subset_rfl, hc⟩, rfl, hin⟩
  | cons i rest ih =>
    intro BB CC sv BB2 CC2 sv2 h hin hb
    rw [expand_iter] at h
    split at h
    · split at h
      · exact absurd h (fun hc => Except.noConfusion hc)
      · rename_i o hexp
        obtain ⟨r1, r2, r3⟩ := expand1_refines G BB CC IL i o hin
          (hb i (List.mem_cons_self i rest)) hexp
        obtain ⟨i1, i2, i3⟩ := ih _ _ _ _ _ _ h r3
          (fun j hj => by rw [r2]; exact hb j (List.mem_cons_of_mem _ hj))
        refine ⟨?_, i2.trans r2, i3⟩
        intro p hp hc
        obtain ⟨p1, hp1, hs1, hc1⟩ := r1 p hp hc
        obtain ⟨p2, hp2, hs2, hc2⟩ := i1 p1 hp1 hc1
        exact ⟨p2, hp2, hs1.trans hs2, hc2⟩
    · exact ih _ _ _ _ _ _ h hin (fun j hj => hb j (List.mem_cons_of_mem _ hj))

/-- A point inside a cube is inside every larger cube. -/
lemma ptInCube_mono {pt : List ℕ} {a b : Finset ℕ} (hab : a ⊆ b)
    (h : ptInCube pt a = true) : ptInCube pt b = true := by
  simp only [ptInCube, List.all_eq_true, decide_eq_true_eq] at h ⊢
  intro i hi
  exact hab (h i hi)

/-- Assembly of the output-projection frame property of one `expand1` call
from the tail facts, when the initially-lowered free set misses the output
parts. -/
lemma expand1_out_aux {G : Geom} {CC CCx : Cover} {c0 F0 : Finset ℕ}
    {ci : ℕ} {o : E1Out}
    (hc0 : c0 = (CC.cubes.getD ci dfltCube).bits)
    (hF0out : F0 ∩ G.outMask = ∅)
    (hP1 : ∀ k : ℕ, ((CCx.cubes[k]?).map (fun c => (c.bits, c.covered))) =
      ((CC.cubes[k]?).map (fun c => (c.bits, c.covered))))
    (htail : ∃ q, o.CC.cubes[ci]? = some q ∧ q.covered = false ∧ c0 ⊆ q.bits ∧
      q.bits ⊆ o.OX ∧ o.OX ⊆ c0 ∪ F0 ∧
      o.CC.cubes.length = CCx.cubes.length ∧
      ∀ k : ℕ, k ≠ ci →
        (o.CC.cubes[k]? = CCx.cubes[k]? ∨
         ∃ p : Cube, CCx.cubes[k]? = some p ∧
           (o.CC.cubes[k]? = some { p with active := false } ∨
             (o.CC.cubes[k]? = some { p with active := false, covered := true } ∧
               p.bits ⊆ q.bits)))) :
    ∀ (k : ℕ) (p : Cube), CC.cubes[k]? = some p →
      ∃ p', o.CC.cubes[k]? = some p' ∧ p.bits ⊆ p'.bits ∧
        p'.bits ∩ G.outMask = p.bits ∩ G.outMask := by
  obtain ⟨q, hq, _, hqc0, hqOX, hOXF, _, hrest⟩ := htail
  have hobs : ∀ (k : ℕ) (p : Cube), CC.cubes[k]? = some p →
      ∃ px, CCx.cubes[k]? = some px ∧ px.bits = p.bits := by
    intro k p hp
    have h1 := hP1 k
    rw [hp] at h1
    cases hx : CCx.cubes[k]? with
    | none =>
      rw [hx] at h1
      exact absurd h1 (by simp)
    | some px =>
      rw [hx] at h1
      simp only [Option.map_some'] at h1
      have h2 := Option.some.inj h1
      rw [Prod.mk.injEq] at h2
      exact ⟨px, rfl, h2.1⟩
  intro k p hp
  by_cases hkci : k = ci
  · subst hkci
    have hgd : CC.cubes.getD k dfltCube = p := by
      rw [List.getD_eq_getElem?_getD, hp]
      rfl
    rw [hgd] at hc0
    subst hc0
    refine ⟨q, hq, hqc0, ?_⟩
    refine Finset.Subset.antisymm ?_ (Finset.inter_subset_inter hqc0 subset_rfl)
    intro x hx
    rcases Finset.mem_inter.1 hx with ⟨hx1, hx2⟩
    rcases Finset.mem_union.1 (hOXF (hqOX hx1)) with hx3 | hx3
    · exact Finset.mem_inter.2 ⟨hx3, hx2⟩
    · exact absurd (Finset.mem_inter.2 ⟨hx3, hx2⟩) (by rw [hF0out]; simp)
  · obtain ⟨px, hpx, hpxb⟩ := hobs k p hp
    rcases hrest k hkci with h1 | ⟨p3, hp3, h2 | ⟨h2, _⟩⟩
    · refine ⟨px, by rw [h1, hpx], ?_, ?_⟩
      · rw [hpxb]
      · rw [hpxb]
    · rw [hpx] at hp3
      rcases Option.some.inj hp3 with rfl
      refine ⟨{ px with active := false }, h2, ?_, ?_⟩
      · show p.bits ⊆ px.bits
        rw [hpxb]
      · show px.bits ∩ G.outMask = p.bits ∩ G.outMask
        rw [hpxb]
    · rw [hpx] at hp3
      rcases Option.some.inj hp3 with rfl
      refine ⟨{ px with active := false, covered := true }, h2, ?_, ?_⟩
      · show p.bits ⊆ px.bits
        rw [hpxb]
      · show px.bits ∩ G.outMask = p.bits ∩ G.outMask
        rw [hpxb]

/-- Output-projection frame property of one `expand1` call with
`INIT_LOWER` equal to the output-variable mask: every cube keeps its bits,
except the expanded cube, which grows without touching output parts. -/
lemma expand1_out_frame (G : Geom) (BB CC : Cover) (ci : ℕ) (o : E1Out)
    (hCC : CubesIn CC G.fullset) (hci : ci < CC.cubes.length)
    (h : expand1_core G BB CC (∅ ∪ G.outMask) ci = .ok o) :
    ∀ (k : ℕ) (p : Cube), CC.cubes[k]? = some p →
      ∃ p', o.CC.cubes[k]? = some p' ∧ p.bits ⊆ p'.bits ∧
        p'.bits ∩ G.outMask = p.bits ∩ G.outMask := by
  rw [expand1_core] at h
  by_cases hIL : (∅ ∪ G.outMask : Finset ℕ) = ∅
  · rw [if_pos hIL] at h
    dsimp only at h
    have hout : G.outMask = ∅ := by
      rw [← Finset.empty_union G.outMask]
      exact hIL
    refine expand1_out_aux rfl (by rw [hout]; exact Finset.inter_empty _) ?_
      (expand1_core_tail_ref ?_ ?_ h)
    · intro k
      rw [map_obs2_get _ _ (fun q => ⟨by split <;> rfl, by split <;> rfl⟩) k,
        modifyCube_obs2_get CC.cubes ci (fun q => { q with prime := true })
          (fun q => ⟨rfl, rfl⟩) k]
    · intro q hq _
      exact (expand1_CC0_in G CC ci hCC q hq).trans
        (subset_union_sdiff_self G.fullset _)
    · rw [List.length_map, modifyCube_length]
      exact hci
  · rw [if_neg hIL] at h
    dsimp only at h
    rw [elim_lowering_snd] at h
    dsimp only [Option.map, Option.getD] at h
    refine expand1_out_aux rfl ?_ ?_
      (expand1_core_tail_ref (CCin_deactWhere_subset _ _) ?_ h)
    · ext x
      simp only [Finset.mem_inter, Finset.mem_sdiff, Finset.mem_union,
        Finset.not_mem_empty, iff_false]
      rintro ⟨⟨_, hx2⟩, hx3⟩
      exact hx2 (Or.inr hx3)
    · intro k
      dsimp only [deactWhere]
      rw [map_obs2_get _ _ (fun q => ⟨by split <;> rfl, by split <;> rfl⟩) k,
        map_obs2_get _ _ (fun q => ⟨by split <;> rfl, by split <;> rfl⟩) k,
        modifyCube_obs2_get CC.cubes ci (fun q => { q with prime := true })
          (fun q => ⟨rfl, rfl⟩) k]
    · rw [deactWhere_length]
      dsimp only
      rw [List.length_map, modifyCube_length]
      exact hci

/-- Output-projection frame property through the whole per-cube iteration
of non-sparse `expand`. -/
lemma expand_iter_out (G : Geom) (IL : Finset ℕ) (hIL : IL = ∅ ∪ G.outMask) :
    ∀ (idxs : List ℕ) (BB CC : Cover) (sv : Bool) (BB2 CC2 : Cover) (sv2 : Bool),
      expand_iter G IL idxs BB CC sv = .ok (BB2, CC2, sv2) →
      CubesIn CC G.fullset →
      (∀ i ∈ idxs, i < CC.cubes.length) →
      (∀ (k : ℕ) (p : Cube), CC.cubes[k]? = some p →
        ∃ p2, CC2.cubes[k]? = some p2 ∧ p.bits ⊆ p2.bits ∧
          p2.bits ∩ G.outMask = p.bits ∩ G.outMask) ∧
      CC2.cubes.length = CC.cubes.length ∧ CubesIn CC2 G.fullset := by
  subst hIL
  intro idxs
  induction idxs with
  | nil =>
    intro BB CC sv BB2 CC2 sv2 h hin _
    rw [expand_iter] at h
    have h3 := Except.ok.inj h
    rw [Prod.mk.injEq, Prod.mk.injEq] at h3
    obtain ⟨_, hC, _⟩ := h3
    subst hC
    exact ⟨fun k p hp => ⟨p, hp, subset_rfl, rfl⟩, rfl, hin⟩
  | cons i rest ih =>
    intro BB CC sv BB2 CC2 sv2 h hin hb
    rw [expand_iter] at h
    split at h
    · split at h
      · exact absurd h (fun hc => Except.noConfusion hc)
      · rename_i o hexp
        obtain ⟨_, r2, r3⟩ := expand1_refines G BB CC (∅ ∪ G.outMask) i o hin
          (hb i (List.mem_cons_self i rest)) hexp
        have hf := expand1_out_frame G BB CC i o hin
          (hb i (List.mem_cons_self i rest)) hexp
        obtain ⟨i1, i2, i3⟩ := ih _ _ _ _ _ _ h r3
          (fun j hj => by rw [r2]; exact hb j (List.mem_cons_of_mem _ hj))
        refine ⟨?_, i2.trans r2, i3⟩
        intro k p hp
        obtain ⟨p1, hp1, hs1, ho1⟩ := hf k p hp
        obtain ⟨p2, hp2, hs2, ho2⟩ := i1 k p1 hp1
        exact ⟨p2, hp2, hs1.trans hs2, by rw [ho2, ho1]⟩
    · exact ih _ _ _ _ _ _ h hin (fun j hj => hb j (List.mem_cons_of_mem _ hj))

/-! ### Facts about the mincov size guard -/

lemma mincov_guard_iff (G : Geom) :
    ∀ (B : List (Finset ℕ)) (nset : ℕ),
      mincov_guard G B nset = true ↔
        ((∃ p ∈ B, 500 < set_dist p G.outMask) ∨
          (B ≠ [] ∧ 500 < nset + (B.map (rowExp G)).sum)) := by
  intro B
  induction B with
  | nil => intro nset; simp [mincov_guard]
  | cons p rest ih =>
    intro nset
    rw [mincov_guard]
    simp only [List.map_cons, List.sum_cons]
    have hrow : (if 1 < set_dist p G.outMask then set_dist p G.outMask else 1) = rowExp G p := rfl
    by_cases h1 : 1 < set_dist p G.outMask ∧ 500 < set_dist p G.outMask
    · rw [if_pos h1]
      simp only [true_iff]
      exact Or.inl ⟨p, List.mem_cons_self p rest, h1.2⟩
    · rw [if_neg h1]
      rw [hrow]
      by_cases h2 : 500 < nset + rowExp G p
      · rw [if_pos h2]
        simp only [true_iff]
        exact Or.inr ⟨List.cons_ne_nil p rest, by omega⟩
      · rw [if_neg h2, ih]
        constructor
        · rintro (⟨q, hq, h5⟩ | ⟨hne, h⟩)
          · exact Or.inl ⟨q, List.mem_cons_of_mem p hq, h5⟩
          · exact Or.inr ⟨List.cons_ne_nil p rest, by omega⟩
        · rintro (⟨q, hq, h5⟩ | ⟨_, h⟩)
          · rcases List.mem_cons.1 hq with rfl | hq'
            · exact absurd ⟨by omega, h5⟩ h1
            · exact Or.inl ⟨q, hq', h5⟩
          · right
            have hrest : rest ≠ [] := by
              intro hempty
              rw [hempty] at h
              simp at h
              omega
            exact ⟨hrest, by omega⟩

/-! ### Facts about essen_parts and feasibly_covered error behaviour -/

lemma essen_parts_fatal_iff (G : Geom) (BB : Cover) (CC : Option Cover)
    (RAISE FREESET : Finset ℕ) :
    essen_parts G BB CC RAISE FREESET = .error .fatal ↔
      ∃ p ∈ BB.cubes, p.active = true ∧ cdist01 G p.bits RAISE = 0 := by
  unfold essen_parts
  by_cases h : BB.cubes.any (fun p => p.active && decide (cdist01 G p.bits RAISE = 0))
  · rw [if_pos h]
    simp only [true_iff]
    simp only [List.any_eq_true, Bool.and_eq_true, decide_eq_true_eq] at h
    rcases h with ⟨p, hp, ha, hd⟩
    exact ⟨p, hp, ha, hd⟩
  · rw [if_neg h]
    constructor
    · intro hc
      exfalso
      revert hc
      dsimp only
      split
      · intro hc; exact Except.noConfusion hc
      · intro hc; exact Except.noConfusion hc
    · rintro ⟨p, hp, ha, hd⟩
      exfalso
      apply h
      simp only [List.any_eq_true, Bool.and_eq_true, decide_eq_true_eq]
      exact ⟨p, hp, ha, hd⟩

lemma essen_parts_ne_fuel (G : Geom) (BB : Cover) (CC : Option Cover)
    (RAISE FREESET : Finset ℕ) :
    essen_parts G BB CC RAISE FREESET ≠ .error .fuel := by
  unfold essen_parts
  split
  · intro hc; injection hc with h; exact Err.noConfusion h
  · dsimp only
    split
    · intro hc; exact Except.noConfusion hc
    · intro hc; exact Except.noConfusion hc

lemma feasibly_covered_none_iff (G : Geom) (BB : Cover) (c RAISE : Finset ℕ) :
    feasibly_covered G BB c RAISE = none ↔
      ∃ p ∈ BB.cubes, p.active = true ∧ cdist01 G p.bits (RAISE ∪ c) = 0 := by
  unfold feasibly_covered
  by_cases h : BB.cubes.any (fun p => p.active && decide (cdist01 G p.bits (RAISE ∪ c) = 0))
  · rw [if_pos h]
    simp only [true_iff]
    simp only [List.any_eq_true, Bool.and_eq_true, decide_eq_true_eq] at h
    exact h
  · rw [if_neg h]
    constructor
    · intro hc; exact Option.noConfusion hc
    · rintro ⟨p, hp, ha, hd⟩
      exfalso
      apply h
      simp only [List.any_eq_true, Bool.and_eq_true, decide_eq_true_eq]
      exact ⟨p, hp, ha, hd⟩

/-! ### Claim C10 -/

/-- C10: for every `CC` (including the null cover) and an empty free set,
`most_frequent` returns -1; and when `CC` is null and the free set is a
non-empty set of parts (parts live below `cube.size`), it returns the
smallest part index present in the free set. -/
theorem most_frequent_empty_and_null :
    (∀ (G : Geom) (CC : Option Cover), most_frequent G CC ∅ = -1) ∧
    (∀ (G : Geom) (FS : Finset ℕ) (h : FS.Nonempty), FS ⊆ Finset.range G.size →
      most_frequent G none FS = (FS.min' h : ℤ)) :=
  ⟨most_frequent_empty, most_frequent_none⟩

/-- Witness for C10 at a concrete geometry and free set. -/
theorem most_frequent_empty_and_null_witness :
    most_frequent ⟨4, [({0, 1} : Finset ℕ), {2, 3}], 1⟩ (some ⟨[], 0⟩) ∅ = -1 ∧
    most_frequent ⟨4, [({0, 1} : Finset ℕ), {2, 3}], 1⟩ none {2, 3} = 2 := by
  constructor
  · exact most_frequent_empty_and_null.1 ⟨4, [({0, 1} : Finset ℕ), {2, 3}], 1⟩ (some ⟨[], 0⟩)
  · have h := most_frequent_empty_and_null.2 ⟨4, [({0, 1} : Finset ℕ), {2, 3}], 1⟩ {2, 3}
      ⟨2, by decide⟩ (by decide)
    rw [h]
    decide

/-! ### Claim C6 -/

/-- C6: with `RANDOM_MINCOV` disabled, `mincov` takes the heuristic branch
(raise the most frequent free part with a null `CC`, remove it from the
free set, rerun `essen_parts`) precisely when some row of `B` has a
per-row output expansion above 500 or the running expansion sum exceeds
500; otherwise it solves the unate covering problem over the unravelled
`B`, raises `FREESET \\ xlower`, empties the free set and zeroes
`BB->active_count` (leaving the `ACTIVE` flags untouched). -/
theorem mincov_branch_guard (G : Geom) (BB : Cover) (RAISE FREESET : Finset ℕ) :
    mincov G BB RAISE FREESET =
      if mincovTrips G (mincov_rows G BB RAISE) then
        (match essen_parts G BB none (zinsert RAISE (most_frequent G none FREESET))
            (FREESET \ zinsert RAISE (most_frequent G none FREESET)) with
         | .error e => .error e
         | .ok (BB', _, F2) =>
             .ok (BB', zinsert RAISE (most_frequent G none FREESET), F2, false))
      else
        .ok ({ BB with active_count := 0 },
          RAISE ∪ (FREESET \ sm_minimum_cover G (unravel_output G (mincov_rows G BB RAISE))),
          ∅, true) := by
  have hg : (mincov_guard G (mincov_rows G BB RAISE) 0 = true) ↔
      mincovTrips G (mincov_rows G BB RAISE) := by
    rw [mincov_guard_iff]
    unfold mincovTrips
    constructor
    · rintro (h | ⟨_, h⟩)
      · exact Or.inl h
      · exact Or.inr (by omega)
    · rintro (h | h)
      · exact Or.inl h
      · refine Or.inr ⟨?_, by omega⟩
        intro he
        rw [he] at h
        simp at h
  unfold mincov
  dsimp only
  by_cases h : mincovTrips G (mincov_rows G BB RAISE)
  · rw [if_pos (hg.2 h), if_pos h]
  · rw [if_neg (fun hc => h (hg.1 hc)), if_neg h]

/-! ### Claim C8 -/

/-- C8: the `make_sparse` loop degenerates.  The source compares the
never-assigned local `cost.total` (modelled by `g`) against the baseline
cost, and then copies it into `best_cost`, so the comparison after
`expand` always succeeds: the do-while loop performs one `mv_reduce` and at
most one `expand` and never iterates — there is no fixed-point iteration on
the cost, contrary to the spec's intended loop. -/
theorem make_sparse_loop_degenerate (G : Geom) (g : ℕ) (F D R : Cover) :
    make_sparse G g F D R =
      if g = cover_cost F then .ok (mv_reduce G F D)
      else expand G (mv_reduce G F D) R true := by
  unfold make_sparse
  show ms_loop G (999 + 1) g (cover_cost F) F D R = _
  rw [ms_loop]
  dsimp only
  by_cases h : g = cover_cost F
  · rw [if_pos h, if_pos h]
  · rw [if_neg h, if_neg h]
    cases hx : expand G (mv_reduce G F D) R true with
    | error e => simp
    | ok F2 => simp

/-! ### Claim C3 -/

/-- C3 (amended): the fatal diagnostic abort happens exactly when
`essen_parts` meets an active OFF-cube at distance 0 from the raising
cube; `feasibly_covered` also detects distance-0 pairs (against
`RAISE ∪ c`), but reports the candidate as infeasible (`FALSE`) instead of
aborting. -/
theorem fatal_exactly_essen_parts_dist0 :
    (∀ (G : Geom) (BB : Cover) (CC : Option Cover) (RAISE FREESET : Finset ℕ),
      essen_parts G BB CC RAISE FREESET = .error .fatal ↔
        ∃ p ∈ BB.cubes, p.active = true ∧ cdist01 G p.bits RAISE = 0) ∧
    (∀ (G : Geom) (BB : Cover) (c RAISE : Finset ℕ),
      feasibly_covered G BB c RAISE = none ↔
        ∃ p ∈ BB.cubes, p.active = true ∧ cdist01 G p.bits (RAISE ∪ c) = 0) :=
  ⟨essen_parts_fatal_iff, feasibly_covered_none_iff⟩

/-- Counterexample to C3 as stated: expanding the cube `{0,2,4}` against
the OFF-set `{{1,3,4}}` with the second ON-cube `{1,3,5}` as a candidate,
the feasibility test meets a distance-0 pair — the candidate joined to the
raising cube `{0,2,4,5}` (grown by `essen_raising`) intersects the active
OFF-cube `{1,3,4}` in every variable — so `feasibly_covered` returns
`FALSE`; yet `expand1` completes normally and returns an expanded prime
instead of aborting: the distance-0 detection in `feasibly_covered` is not
fatal. -/
theorem feasibly_covered_not_fatal_counterexample :
    feasibly_covered ⟨6, [({0, 1} : Finset ℕ), {2, 3}, {4, 5}], 2⟩
        (activateAll ⟨[{ bits := {1, 3, 4} }], 0⟩) {1, 3, 5} {0, 2, 4, 5} = none ∧
    (expand1_core ⟨6, [({0, 1} : Finset ℕ), {2, 3}, {4, 5}], 2⟩
        ⟨[{ bits := {1, 3, 4} }], 0⟩ ⟨[{ bits := {0, 2, 4} }, { bits := {1, 3, 5} }], 0⟩ ∅ 0).map
      (fun o => (obs o.BB, obs o.CC, o.OX, o.usedSolver)) =
      .ok (([(({1, 3, 4} : Finset ℕ), false, false, false, false)], 0),
           ([(({0, 1, 2, 4, 5} : Finset ℕ), true, false, false, true),
             (({1, 3, 5} : Finset ℕ), false, false, false, false)], 0),
           ({0, 1, 2, 3, 4, 5} : Finset ℕ), false) := by
  exact ⟨by decide, by decide⟩

/-! ### Claim C4 counterexample -/

/-- Counterexample to C4 as stated: with `F = {x & o1}` and an empty
OFF-set, `expand(F, R, false)` returns the full cube, which covers the
point `(x-bar, o2)` (parts 1 and 3) that the input cover does not cover:
the union of the returned cubes is strictly larger than the union of the
input cubes, so the two are not equal as Boolean functions. -/
theorem expand_coverage_counterexample :
    (expand ⟨4, [({0, 1} : Finset ℕ), {2, 3}], 1⟩ ⟨[{ bits := {0, 2} }], 0⟩ ⟨[], 0⟩ false).map obs =
      .ok ([(({0, 1, 2, 3} : Finset ℕ), true, false, true, false)], 1) ∧
    coveredBy ⟨[{ bits := ({0, 1, 2, 3} : Finset ℕ), prime := true }], 1⟩ [1, 3] = true ∧
    coveredBy ⟨[{ bits := ({0, 2} : Finset ℕ) }], 0⟩ [1, 3] = false ∧
    [1, 3].length = [({0, 1} : Finset ℕ), {2, 3}].length ∧
    1 ∈ ({0, 1} : Finset ℕ) ∧ 3 ∈ ({2, 3} : Finset ℕ) := by
  refine ⟨by decide, by decide, by decide, by decide, by decide, by decide⟩

/-! ### Claim C4 (amended direction) -/

/-- C4 (amended): coverage never shrinks — every point covered by the
input cover is covered by `expand(F, R, false)` (the converse inclusion is
refuted by `Espresso.expand_coverage_counterexample`): each non-covered
cube either survives with enlarged bits or is absorbed into a surviving
prime that contains it. -/
theorem expand_covers_input (G : Geom) (F R Fout : Cover)
    (hin : CubesIn F G.fullset)
    (h : expand G F R false = .ok Fout) :
    ∀ pt, coveredBy F pt = true → coveredBy Fout pt = true := by
  have hperm : ((mini_sort F).cubes).Perm F.cubes := List.perm_insertionSort _ _
  unfold expand at h
  cases hT : expandT G F R false with
  | error e =>
    rw [hT] at h
    exact absurd h (fun hc => Except.noConfusion hc)
  | ok x =>
    rw [hT] at h
    obtain ⟨Cout, svv⟩ := x
    dsimp only [Except.map] at h
    have hF := Except.ok.inj h
    subst hF
    rw [expandT] at hT
    simp only [bind, Except.bind] at hT
    split at hT
    · exact absurd hT (fun hc => Except.noConfusion hc)
    · rename_i x hiter
      obtain ⟨BBe, CCf, sve⟩ := x
      dsimp only at hT
      have h3 := Except.ok.inj hT
      rw [Prod.mk.injEq] at h3
      obtain ⟨hCout, _⟩ := h3
      obtain ⟨r1, _, _⟩ := expand_iter_refines G _ _ _ _ _ _ _ _ hiter
        (by
          intro p hp
          rcases List.mem_map.1 hp with ⟨p1, hp1, rfl⟩
          exact hin p1 (hperm.subset hp1))
        (fun i hi => List.mem_range.1 hi)
      intro pt hpt
      simp only [coveredBy, List.any_eq_true] at hpt ⊢
      obtain ⟨c, hc, hcp⟩ := hpt
      obtain ⟨p2, hp2, hs, hc2⟩ := r1 { c with covered := false, nonessen := false }
        (List.mem_map.2 ⟨c, hperm.symm.subset hc, rfl⟩) rfl
      have hmem : ({ p2 with active := true } : Cube) ∈ CCf.cubes.map
          (fun p => if p.covered = true then { p with active := false }
            else { p with active := true }) := by
        refine List.mem_map.2 ⟨p2, hp2, ?_⟩
        rw [if_neg (by rw [hc2]; exact Bool.false_ne_true)]
      rw [← hCout]
      by_cases hch : (CCf.cubes.any fun p => p.covered) = true
      · rw [if_pos hch]
        refine ⟨{ p2 with active := true }, ?_, ptInCube_mono hs hcp⟩
        exact List.mem_filter.2 ⟨hmem, rfl⟩
      · rw [if_neg hch]
        exact ⟨{ p2 with active := true }, hmem, ptInCube_mono hs hcp⟩

/-- Witness for the amended C4: the single-cube cover `{x & o1}` expands
(with an empty OFF-set) to the full cube, which still covers the point
`(x, o1)` covered by the input. -/
theorem expand_covers_input_witness :
    CubesIn ⟨[{ bits := {0, 2} }], 0⟩
      (Geom.fullset ⟨4, [({0, 1} : Finset ℕ), {2, 3}], 1⟩) ∧
    expand ⟨4, [({0, 1} : Finset ℕ), {2, 3}], 1⟩ ⟨[{ bits := {0, 2} }], 0⟩
      ⟨[], 0⟩ false =
      .ok ⟨[{ bits := {0, 1, 2, 3}, prime := true, active := true }], 1⟩ ∧
    coveredBy ⟨[{ bits := {0, 2} }], 0⟩ [0, 2] = true ∧
    coveredBy ⟨[{ bits := {0, 1, 2, 3}, prime := true, active := true }], 1⟩
      [0, 2] = true :=
  ⟨by unfold CubesIn; decide, by decide, by decide,
   expand_covers_input ⟨4, [({0, 1} : Finset ℕ), {2, 3}], 1⟩
     ⟨[{ bits := {0, 2} }], 0⟩ ⟨[], 0⟩
     ⟨[{ bits := {0, 1, 2, 3}, prime := true, active := true }], 1⟩
     (by unfold CubesIn; decide) (by decide) [0, 2] (by decide)⟩

/-! ### Claim C5 -/

/-- **C5.** Non-sparse expansion freezes the output variable: every cube
returned by `expand(F, R, true)` has the same output-variable projection
as the input cube it was expanded from (which it contains). -/
theorem expand_nonsparse_preserves_output (G : Geom) (F R Fout : Cover)
    (hin : CubesIn F G.fullset)
    (h : expand G F R true = .ok Fout) :
    ∀ p' ∈ Fout.cubes, ∃ p ∈ F.cubes, p.bits ⊆ p'.bits ∧
      p'.bits ∩ G.outMask = p.bits ∩ G.outMask := by
  have hperm : ((mini_sort F).cubes).Perm F.cubes := List.perm_insertionSort _ _
  unfold expand at h
  cases hT : expandT G F R true with
  | error e =>
    rw [hT] at h
    exact absurd h (fun hc => Except.noConfusion hc)
  | ok x =>
    rw [hT] at h
    obtain ⟨Cout, svv⟩ := x
    dsimp only [Except.map] at h
    have hF := Except.ok.inj h
    subst hF
    rw [expandT] at hT
    simp only [bind, Except.bind] at hT
    split at hT
    · exact absurd hT (fun hc => Except.noConfusion hc)
    · rename_i x hiter
      obtain ⟨BBe, CCf, sve⟩ := x
      dsimp only at hT
      have h3 := Except.ok.inj hT
      rw [Prod.mk.injEq] at h3
      obtain ⟨hCout, _⟩ := h3
      obtain ⟨i1, i2, _⟩ := expand_iter_out G _ rfl _ _ _ _ _ _ _ hiter
        (by
          intro p hp
          rcases List.mem_map.1 hp with ⟨p1, hp1, rfl⟩
          exact hin p1 (hperm.subset hp1))
        (fun i hi => List.mem_range.1 hi)
      intro p' hp'
      rw [← hCout] at hp'
      have hp2 : p' ∈ CCf.cubes.map
          (fun p => if p.covered = true then { p with active := false }
            else { p with active := true }) := by
        by_cases hch : (CCf.cubes.any fun p => p.covered) = true
        · rw [if_pos hch] at hp'
          exact (List.mem_filter.1 hp').1
        · rw [if_neg hch] at hp'
          exact hp'
      rcases List.mem_map.1 hp2 with ⟨p2, hp2f, hfp2⟩
      rcases List.mem_iff_getElem?.1 hp2f with ⟨k, hk⟩
      have hkCC : k < CCf.cubes.length := by
        by_contra hge
        rw [List.getElem?_eq_none (Nat.le_of_not_lt hge)] at hk
        exact Option.noConfusion hk
      have hkF2 : k < (mini_sort F).cubes.length := by
        have h4 := i2
        rw [List.length_map] at h4
        rw [← h4]
        exact hkCC
      obtain ⟨psort, hpsort⟩ : ∃ psort, (mini_sort F).cubes[k]? = some psort :=
        ⟨(mini_sort F).cubes[k], List.getElem?_eq_getElem hkF2⟩
      have hF2k : ((mini_sort F).cubes.map
          (fun p => { p with covered := false, nonessen := false }))[k]? =
          some { psort with covered := false, nonessen := false } := by
        rw [List.getElem?_map, hpsort]
        rfl
      obtain ⟨p2b, hp2b, hsb, hob⟩ := i1 k _ hF2k
      rw [hk] at hp2b
      rcases Option.some.inj hp2b with rfl
      refine ⟨psort, hperm.subset (List.mem_iff_getElem?.2 ⟨k, hpsort⟩), ?_, ?_⟩
      · rw [← hfp2]
        split
        · exact hsb
        · exact hsb
      · rw [← hfp2]
        split
        · exact hob
        · exact hob

/-- Witness for C5: the two-cube ON-set expanded non-sparsely against the
OFF-set `{{1,3,4}}` returns two primes whose output projections equal
those of their source cubes. -/
theorem expand_nonsparse_preserves_output_witness :
    CubesIn ⟨[{ bits := {0, 2, 4} }, { bits := {1, 3, 5} }], 0⟩
      (Geom.fullset ⟨6, [({0, 1} : Finset ℕ), {2, 3}, {4, 5}], 2⟩) ∧
    expand ⟨6, [({0, 1} : Finset ℕ), {2, 3}, {4, 5}], 2⟩
      ⟨[{ bits := {0, 2, 4} }, { bits := {1, 3, 5} }], 0⟩
      ⟨[{ bits := {1, 3, 4} }], 0⟩ true =
      .ok ⟨[{ bits := {0, 2, 3, 4}, prime := true, active := true, nonessen := true },
            { bits := {0, 1, 2, 3, 5}, prime := true, active := true }], 2⟩ ∧
    ∀ p' ∈ (⟨[{ bits := ({0, 2, 3, 4} : Finset ℕ), prime := true, active := true,
                nonessen := true },
              { bits := ({0, 1, 2, 3, 5} : Finset ℕ), prime := true,
                active := true }], 2⟩ : Cover).cubes,
      ∃ p ∈ (⟨[{ bits := ({0, 2, 4} : Finset ℕ) },
               { bits := ({1, 3, 5} : Finset ℕ) }], 0⟩ : Cover).cubes,
        p.bits ⊆ p'.bits ∧
        p'.bits ∩ (Geom.outMask ⟨6, [({0, 1} : Finset ℕ), {2, 3}, {4, 5}], 2⟩) =
          p.bits ∩ (Geom.outMask ⟨6, [({0, 1} : Finset ℕ), {2, 3}, {4, 5}], 2⟩) :=
  ⟨by unfold CubesIn; decide, by decide,
   expand_nonsparse_preserves_output ⟨6, [({0, 1} : Finset ℕ), {2, 3}, {4, 5}], 2⟩
     ⟨[{ bits := {0, 2, 4} }, { bits := {1, 3, 5} }], 0⟩
     ⟨[{ bits := {1, 3, 4} }], 0⟩
     ⟨[{ bits := {0, 2, 3, 4}, prime := true, active := true, nonessen := true },
       { bits := {0, 1, 2, 3, 5}, prime := true, active := true }], 2⟩
     (by unfold CubesIn; decide) (by decide)⟩

/-! ### Claim C9 -/

/-- **C9.** Throughout a call to `expand1` the raising cube only gains
parts and `RAISE ∪ FREESET` never grows after the over-expanded cube is
recorded (the invariant chain is `sf_loop_inv`, `mf_loop_inv`,
`bb_loop_inv`); consequently, for an ON-cover whose cubes lie inside the
geometry, the cube written back at index `ci` satisfies
(input cube) ⊆ (result cube) ⊆ OVEREXPANDED_CUBE. -/
theorem expand1_grows_within_overexpanded (G : Geom) (BB CC : Cover)
    (IL : Finset ℕ) (ci : ℕ) (o : E1Out)
    (hCC : CubesIn CC G.fullset) (hci : ci < CC.cubes.length)
    (h : expand1_core G BB CC IL ci = .ok o) :
    ∃ q, o.CC.cubes[ci]? = some q ∧
      (CC.cubes.getD ci dfltCube).bits ⊆ q.bits ∧ q.bits ⊆ o.OX := by
  rw [expand1_core] at h
  by_cases hIL : IL = ∅
  · rw [if_pos hIL] at h
    dsimp only at h
    refine expand1_core_tail ?_ ?_ h
    · intro q hq _
      exact (expand1_CC0_in G CC ci hCC q hq).trans
        (subset_union_sdiff_self G.fullset _)
    · dsimp only
      rw [List.length_map, modifyCube_length]
      exact hci
  · rw [if_neg hIL] at h
    dsimp only at h
    rw [elim_lowering_snd] at h
    dsimp only [Option.map, Option.getD] at h
    refine expand1_core_tail (CCin_deactWhere_subset _ _) ?_ h
    rw [deactWhere_length]
    dsimp only
    rw [List.length_map, modifyCube_length]
    exact hci

/-- Witness for C9: expanding the first cube `{0,2,4}` of the two-cube
ON-set against the OFF-set `{{1,3,4}}` in the three-variable geometry, the
written-back cube `{0,1,2,4,5}` contains the input cube and is contained
in the over-expanded cube (here the full set). -/
theorem expand1_grows_within_overexpanded_witness :
    CubesIn ⟨[{ bits := {0, 2, 4} }, { bits := {1, 3, 5} }], 0⟩
        (Geom.fullset ⟨6, [({0, 1} : Finset ℕ), {2, 3}, {4, 5}], 2⟩) ∧
    (0 : ℕ) < 2 ∧
    (∃ q, ([{ bits := ({0, 1, 2, 4, 5} : Finset ℕ), prime := true, nonessen := true },
            { bits := ({1, 3, 5} : Finset ℕ) }] : List Cube)[0]? = some q ∧
      ({0, 2, 4} : Finset ℕ) ⊆ q.bits ∧ q.bits ⊆ ({0, 1, 2, 3, 4, 5} : Finset ℕ)) :=
  ⟨by unfold CubesIn; decide, by decide,
   expand1_grows_within_overexpanded ⟨6, [({0, 1} : Finset ℕ), {2, 3}, {4, 5}], 2⟩
     ⟨[{ bits := {1, 3, 4} }], 0⟩
     ⟨[{ bits := {0, 2, 4} }, { bits := {1, 3, 5} }], 0⟩ ∅ 0
     { BB := ⟨[{ bits := {1, 3, 4} }], 0⟩,
       CC := ⟨[{ bits := {0, 1, 2, 4, 5}, prime := true, nonessen := true },
               { bits := {1, 3, 5} }], 0⟩,
       OX := {0, 1, 2, 3, 4, 5}, usedSolver := false }
     (by unfold CubesIn; decide) (by decide) (by decide)⟩

end Espresso
